import Mathlib

/-!
# Verification of flanker's MIME part module (`flanker/mime/message/part.py`)

A shallow embedding of the data model and operations of the module:
byte strings are `List Nat`, Python text for the base64 machinery is
`List Char`, fallible Python code returns `Option`/`Except`.
Each definition mirrors one function of the source file.
-/

namespace Flanker

/-! ## Transfer-encoding strength selection (`_stronger_encoding`, `_choose_text_encoding`) -/

/-- The `weights` dictionary of `_stronger_encoding` as a lookup returning
`none` for a missing key (Python `weights[b]` raises `KeyError` then). -/
def weightsFind (e : String) : Option Int :=
  if e = "7bit" then some 0
  else if e = "quoted-printable" then some 1
  else if e = "base64" then some 1
  else if e = "8bit" then some 3
  else none

/-- `weights.get(a, -1)`. -/
def weightsGetD (e : String) : Int :=
  (weightsFind e).getD (-1)

/-- `_stronger_encoding(a, b)`; `none` models the `KeyError` raised by
`weights[b]` when `b` is not a key. -/
def _stronger_encoding (a b : String) : Option String :=
  match weightsFind b with
  | none => none
  | some wb => some (if weightsGetD a ≥ wb then a else b)

/-- `bytes.splitlines()` in Python: split on `\r\n`, `\r` or `\n`,
terminators dropped, no trailing empty line. Byte 13 is `\r`, 10 is `\n`. -/
def splitlinesAux (acc : List Nat) : List Nat → List (List Nat)
  | [] => if acc = [] then [] else [acc.reverse]
  | 13 :: 10 :: bs => acc.reverse :: splitlinesAux [] bs
  | 13 :: bs => acc.reverse :: splitlinesAux [] bs
  | 10 :: bs => acc.reverse :: splitlinesAux [] bs
  | b :: bs => splitlinesAux (b :: acc) bs

def splitlinesB (text : List Nat) : List (List Nat) :=
  splitlinesAux [] text

/-- `has_long_lines(text, max_line_len)`. -/
def has_long_lines (text : List Nat) (max_line_len : Nat) : Bool :=
  if text = [] then false
  else (splitlinesB text).any (fun line => decide (line.length ≥ max_line_len))

/-- `_choose_text_encoding(charset, preferred_encoding, body)`; the body is the
already charset-encoded byte string.  `none` only on the `KeyError` path of
`_stronger_encoding` (never reached for the encodings the module uses). -/
def _choose_text_encoding (charset preferred_encoding : String) (body : List Nat) :
    Option String :=
  if charset = "ascii" ∨ charset = "iso-8859-1" ∨ charset = "us-ascii" then
    if has_long_lines body 599 then
      _stronger_encoding preferred_encoding "quoted-printable"
    else
      some preferred_encoding
  else
    _stronger_encoding preferred_encoding "quoted-printable"

/-- The four transfer encodings the spec's ordering talks about. -/
def knownEncodings : List String :=
  ["7bit", "quoted-printable", "base64", "8bit"]

/-! ## Python-level errors

`decoding` is flanker's `DecodingError`, `encoding` its `EncodingError`;
`valueError` stands for `ValueError`/`binascii.Error`, `attrError` for
`AttributeError`.  `MimePart.to_stream` catches only `decoding`. -/

inductive PyErr where
  | decoding
  | encoding
  | valueError
  | attrError
deriving DecidableEq, Repr

/-! ## Content types (collaborator data)

`ContentType` lives in the headers package (not under `src/`).
Modelled from the spec: a content type carries a main/sub type, a kind
(singlepart / multipart / message-container), an optional `charset`
parameter, and produces RFC 2046 boundary delimiter lines. -/

inductive CKind where
  | singlepart
  | multipart
  | messageContainer
deriving DecidableEq, Repr

structure CType where
  kind : CKind
  main : String
  sub : String
  charset : Option String
  boundaryLine : List Nat
  boundaryFinalLine : List Nat
deriving DecidableEq, Repr

def CType.is_singlepart (c : CType) : Bool := c.kind = CKind.singlepart
def CType.is_multipart (c : CType) : Bool := c.kind = CKind.multipart
def CType.is_message_container (c : CType) : Bool := c.kind = CKind.messageContainer

/-! ## Collaborator operations

The header collaborator (`flanker.mime.message.headers`) and the charset
collaborator (`flanker.mime.message.charsets`) are code of this repository
that is not under `src/`.  Modelled from the spec: an abstract header state
`H` with parsing, change tracking, full and prepends-only serialization, and
named lookups; a charset converter that may fail with a decoding error. -/

structure HeaderOps (H : Type) where
  /-- `headers.MimeHeaders.from_stream(stream)` positioned at an offset:
  returns the parsed header collection and `stream.tell()`, the offset where
  the body starts; may raise `DecodingError` on malformed headers. -/
  fromStream : List Nat → Nat → Except PyErr (H × Nat)
  /-- `self._headers.have_changed(ignore_prepends)`. -/
  haveChanged : H → Bool → Bool
  /-- the bytes `headers.to_stream(out)` writes. -/
  fullBlock : H → List Nat
  /-- the bytes `headers.to_stream(out, prepends_only=True)` writes. -/
  prependsBlock : H → List Nat
  /-- truthiness of the collection (`if self.headers:`). -/
  nonEmpty : H → Bool
  /-- `headers.get('Content-Transfer-Encoding', ...)`: `none` when absent. -/
  findCTE : H → Option String
  /-- `headers.get('Content-Disposition', WithParams(None)).value`. -/
  getDisposition : H → Option String
  /-- `self.headers['Content-Transfer-Encoding'] = WithParams(value)`. -/
  setContentEncoding : H → String → H
  /-- effect on the header collection of the `charset` setter
  (`headers['Content-Type'].params['charset'] = charset; headers.changed = True`). -/
  setCharsetHeader : H → String → H

structure CharsetOps where
  /-- `charsets.convert_to_unicode(charset, body)`; may raise `DecodingError`. -/
  convertToUnicode : Option String → List Nat → Except PyErr (List Nat)
  /-- `text.encode(charset)`: `none` models an encode failure (any exception). -/
  encodeText : String → List Nat → Option (List Nat)
  /-- `text.encode('utf-8')`, which never fails for text. -/
  encodeUtf8 : List Nat → List Nat

/-- Python-stdlib collaborators used only by the encode pipeline:
`quopri.encodestring(body, quotetabs=False)` and `_email.encode_base64`
(standard base64 with line wrapping). -/
structure StdOps where
  quopriEncodestring : List Nat → List Nat
  emailEncodeBase64 : List Nat → List Nat

/-! ## The `Stream` container -/

/-- `Stream.__init__`: a lazily-parsed slice `[start, endPos]` of a shared
seekable buffer `streamBuf`; `string` is this part's slice as handed over by
the top-level parser.  `_headers`/`_body_start`/`_body` are the lazy caches,
`_body_changed` the body-write flag.  (`end` is a Lean keyword, hence
`endPos`.) -/
structure Stream (H : Type) where
  content_type : CType
  start : Nat
  endPos : Nat
  string : List Nat
  streamBuf : List Nat
  _headers : Option H
  _body_start : Option Nat
  _body : Option (List Nat)
  _body_changed : Bool

/-- A fresh container as built by `Stream.__init__`. -/
def Stream.make (ct : CType) (start endPos : Nat) (string streamBuf : List Nat) :
    Stream H :=
  { content_type := ct, start := start, endPos := endPos, string := string,
    streamBuf := streamBuf, _headers := none, _body_start := none,
    _body := none, _body_changed := false }

/-- `self.stream.seek(a); self.stream.read(b - a + 1)`. -/
def readSlice (buf : List Nat) (a b : Nat) : List Nat :=
  (buf.drop a).take (b - a + 1)

/-- `Stream.read_message`. -/
def Stream.read_message (s : Stream H) : List Nat :=
  readSlice s.streamBuf s.start s.endPos

/-- `Stream._load_headers`: parse and cache headers and the body-start offset
on first access. -/
def Stream._load_headers (ops : HeaderOps H) (s : Stream H) :
    Except PyErr (Stream H) :=
  match s._headers with
  | some _ => .ok s
  | none => do
    let (h, bs) ← ops.fromStream s.streamBuf s.start
    .ok { s with _headers := some h, _body_start := some bs }

/-- `Stream.read_body`.  The `valueError` branch models the `TypeError` a
`seek(None)` would raise; it is unreachable from containers built by
`Stream.make` because `_load_headers` always sets both caches together. -/
def Stream.read_body (ops : HeaderOps H) (s : Stream H) :
    Except PyErr (Stream H × List Nat) := do
  let s ← s._load_headers ops
  match s._body_start with
  | some bs => .ok (s, readSlice s.streamBuf bs s.endPos)
  | none => .error .valueError

/-- `Stream._set_body` (the body property setter). -/
def Stream._set_body (s : Stream H) (value : Option (List Nat)) : Stream H :=
  if value ≠ s._body then
    { s with _body := value, _body_changed := true }
  else
    s

/-- `Stream.body_changed`. -/
def Stream.body_changed (s : Stream H) : Bool :=
  s._body_changed

/-- `Stream.headers_changed(ignore_prepends)`. -/
def Stream.headers_changed (ops : HeaderOps H) (s : Stream H)
    (ignore_prepends : Bool) : Bool :=
  match s._headers with
  | none => false
  | some h => ops.haveChanged h ignore_prepends

/-- `Stream._stream_prepended_headers(out)`: the bytes it writes. -/
def Stream.prependedHeaders (ops : HeaderOps H) (s : Stream H) : List Nat :=
  match s._headers with
  | none => []
  | some h => ops.prependsBlock h

/-! ## Base64: `base64.b64decode`, `_recover_base64`, `_base64_decode`

Python text is `List Char`, decoded payloads are byte lists (`List Nat`).
`base64.b64decode` delegates to CPython's `binascii.a2b_base64` in
non-strict mode: characters outside the alphabet and `'='` are skipped;
a pad run that completes a quad of at least two data characters stops
decoding; at end of input a partially filled quad is an error. -/

/-- Membership in the base64 alphabet `{A-Z, a-z, 0-9, +, /}` (the PY3 branch
of `_recover_base64` tests exactly these ranges). -/
def isB64Alpha (c : Char) : Bool :=
  (decide ('A' ≤ c) && decide (c ≤ 'Z')) ||
  (decide ('a' ≤ c) && decide (c ≤ 'z')) ||
  (decide ('0' ≤ c) && decide (c ≤ '9')) ||
  (c = '+') || (c = '/')

/-- The 6-bit value of an alphabet character, `none` outside the alphabet. -/
def b64CharVal (c : Char) : Option Nat :=
  if decide ('A' ≤ c) && decide (c ≤ 'Z') then some (c.toNat - 65)
  else if decide ('a' ≤ c) && decide (c ≤ 'z') then some (c.toNat - 97 + 26)
  else if decide ('0' ≤ c) && decide (c ≤ '9') then some (c.toNat - 48 + 52)
  else if c = '+' then some 62
  else if c = '/' then some 63
  else none

/-- `binascii.a2b_base64(data)` in non-strict mode.  `quad` is the list of
sextets of the quad in progress (length 0..3), `pads` the current pad-run
counter; bytes are emitted as soon as their bits are complete, mirroring the
C loop's eager output.  An `error` models `binascii.Error` (a `ValueError`). -/
def a2b_base64 : List Char → List Nat → Nat → Except PyErr (List Nat)
  | [], quad, _ => if quad.length = 0 then .ok [] else .error .valueError
  | c :: cs, quad, pads =>
    if c = '=' then
      if 2 ≤ quad.length ∧ 4 ≤ quad.length + (pads + 1) then
        .ok []
      else
        a2b_base64 cs quad (pads + 1)
    else
      match b64CharVal c with
      | none => a2b_base64 cs quad pads
      | some v =>
        match quad with
        | [] => a2b_base64 cs [v] 0
        | [s0] => (a2b_base64 cs [s0, v] 0).map (fun r => (s0 * 4 + v / 16) :: r)
        | [s0, s1] =>
            (a2b_base64 cs [s0, s1, v] 0).map (fun r => (s1 % 16 * 16 + v / 4) :: r)
        | [_, _, s2] => (a2b_base64 cs [] 0).map (fun r => (s2 % 4 * 64 + v) :: r)
        | _ => .error .valueError

/-- `base64.b64decode(s)` for a Python `str`: the argument is first encoded
as ASCII (raising `ValueError` on non-ASCII characters), then fed to
`binascii.a2b_base64`. -/
def b64decode (s : List Char) : Except PyErr (List Nat) :=
  if s.all (fun c => c.toNat < 128) then a2b_base64 s [] 0 else .error .valueError

/-- `_recover_base64` (PY3 branch): keep only alphabet characters. -/
def _recover_base64 (s : List Char) : List Char :=
  s.filter isB64Alpha

/-- `_base64_decode`: standard decode, and on `TypeError`/`ValueError` the
lenient retry — strip to the alphabet, drop the last character when the
length is 1 mod 4, otherwise append `'='` up to `4 - len mod 4` characters,
and decode again (this second decode's failure propagates). -/
def _base64_decode (s : List Char) : Except PyErr (List Nat) :=
  match b64decode s with
  | .ok r => .ok r
  | .error _ =>
    let t := _recover_base64 s
    let tail_size := t.length % 4
    if tail_size = 1 then
      b64decode t.dropLast
    else
      b64decode (t ++ List.replicate (4 - tail_size) '=')

/-- The alphabet character of a 6-bit value. -/
def b64AlphaChar (v : Nat) : Char :=
  if v < 26 then Char.ofNat (65 + v)
  else if v < 52 then Char.ofNat (97 + (v - 26))
  else if v < 62 then Char.ofNat (48 + (v - 52))
  else if v = 62 then '+'
  else '/'

/-- Standard base64 encoding without line wrapping: three bytes to four
characters, `'='`-padded final chunk. -/
def b64e : List Nat → List Char
  | [] => []
  | [a] => [b64AlphaChar (a / 4), b64AlphaChar (a % 4 * 16), '=', '=']
  | [a, b] => [b64AlphaChar (a / 4), b64AlphaChar (a % 4 * 16 + b / 16),
      b64AlphaChar (b % 16 * 4), '=']
  | a :: b :: c :: rest =>
      b64AlphaChar (a / 4) :: b64AlphaChar (a % 4 * 16 + b / 16) ::
      b64AlphaChar (b % 16 * 4 + c / 64) :: b64AlphaChar (c % 64) ::
      b64e rest

/-- Split into 76-character lines, each terminated by `'\n'`. -/
def wrap76 (cs : List Char) : List Char :=
  if cs = [] then []
  else cs.take 76 ++ '\x0a' :: wrap76 (cs.drop 76)
termination_by cs.length
decreasing_by
  simp_wf
  cases cs with
  | nil => simp_all
  | cons c cs2 => simp

/-- Modelled from the spec: `_email.encode_base64` (the `flanker._email`
collaborator, not under `src/`) — "base64 uses standard encoding with line
wrapping", i.e. `base64.encodebytes`: 76-character lines each followed by a
newline. -/
def encode_base64_email (x : List Nat) : List Char :=
  wrap76 (b64e x)

/-! ## Quoted-printable: `quopri.decodestring`, `fix_leading_dot`, `_quote_and_cut`

Quoted-printable text is a byte list.  Byte names: 61 `=`, 10 `\n`, 13 `\r`,
32 space, 9 tab, 46 `.`. -/

/-- `quopri.ishex` on a single byte. -/
def ishex (b : Nat) : Bool :=
  (48 ≤ b && b ≤ 57) || (97 ≤ b && b ≤ 102) || (65 ≤ b && b ≤ 70)

/-- Hex digit value (only meaningful on hex-digit bytes). -/
def hexVal (b : Nat) : Nat :=
  if 48 ≤ b && b ≤ 57 then b - 48
  else if 97 ≤ b && b ≤ 102 then b - 97 + 10
  else b - 65 + 10

/-- `quopri.unhex` on a two-digit escape body. -/
def unhex (a b : Nat) : Nat :=
  hexVal a * 16 + hexVal b

/-- Upper-case hex digit byte of a value in 0..15. -/
def hexDigitUpper (n : Nat) : Nat :=
  if n < 10 then 48 + n else 55 + n

/-- `quopri.quote(c)`: the three bytes of `'=%02X' % ord(c)`. -/
def qpQuote (b : Nat) : List Nat :=
  [61, hexDigitUpper (b / 16), hexDigitUpper (b % 16)]

/-- `BytesIO.readline` iterated: split after every `\n`, keeping it. -/
def readlinesAux (acc : List Nat) : List Nat → List (List Nat)
  | [] => if acc = [] then [] else [acc.reverse]
  | b :: bs =>
    if b = 10 then (acc.reverse ++ [10]) :: readlinesAux [] bs
    else readlinesAux (b :: acc) bs

def readlinesKeepEnds (s : List Nat) : List (List Nat) :=
  readlinesAux [] s

mutual

/-- `binascii.a2b_qp(data, header=False)`, the C implementation behind
`quopri.decodestring`: `=` followed by `\n` is a soft break; `=` followed by
`\r` skips through the next `\n` (`a2b_qp_skip` is that skipping loop);
`==` emits one literal `=` consuming both; `=XY` with two hex digits
available emits the byte; any other `=` is emitted literally; a final lone
`=` is dropped; all other bytes are copied. -/
def a2b_qp (data : List Nat) : List Nat :=
  match data with
  | [] => []
  | c :: rest =>
    if c = 61 then
      match rest with
      | [] => []
      | d :: rest2 =>
        if d = 10 then a2b_qp rest2
        else if d = 13 then a2b_qp_skip rest2
        else if d = 61 then 61 :: a2b_qp rest2
        else
          match rest2 with
          | [] => 61 :: a2b_qp [d]
          | e :: rest3 =>
            if ishex d && ishex e then unhex d e :: a2b_qp rest3
            else 61 :: a2b_qp (d :: e :: rest3)
    else c :: a2b_qp rest
termination_by data.length
decreasing_by
  all_goals simp_wf
  all_goals omega

/-- The `while (in < datalen && ascii_data[in] != '\n') in++;` loop after
`=\r`, consuming through the next newline and resuming the scan. -/
def a2b_qp_skip : List Nat → List Nat
  | [] => []
  | 10 :: r => a2b_qp r
  | _ :: r => a2b_qp_skip r
termination_by l => l.length
decreasing_by
  all_goals simp_wf
  all_goals omega

end

/-- `quopri.decodestring(s)` (header=False), which delegates to
`binascii.a2b_qp`. -/
def quopri_decodestring (s : List Nat) : List Nat :=
  a2b_qp s

/-- The cut-point search loop of `_quote_and_cut`: iterate over `ln` tracking
`in_quote`; outside an escape, break at the first position strictly past
`len(ln)/2`; a `=` whose next byte is a hex digit opens a 3-byte escape that
is skipped atomically.  Returns the Python loop's final `pos` (the break
position, or the last index when the loop runs out). -/
def cutScan (total : Nat) : List Nat → Nat → Nat → Nat
  | [], pos, _ => pos - 1
  | c :: rest, pos, inq =>
    if inq ≠ 0 then
      if inq + 1 ≤ 3 then
        cutScan total rest (pos + 1) (inq + 1)
      else
        if 2 * pos > total then pos
        else if c = 61 then
          (if (match rest with | b :: _ => ishex b | [] => false) then
            cutScan total rest (pos + 1) 1
          else
            cutScan total rest (pos + 1) 0)
        else cutScan total rest (pos + 1) 0
    else
      if 2 * pos > total then pos
      else if c = 61 then
        (if (match rest with | b :: _ => ishex b | [] => false) then
          cutScan total rest (pos + 1) 1
        else
          cutScan total rest (pos + 1) 0)
      else cutScan total rest (pos + 1) 0

/-- `if new_line[-1:] in b' \t': new_line = new_line[:-1] + quote(new_line[-1:])`:
hex-escape a trailing space or tab of the kept half. -/
def qpSpaceAdjust (nl : List Nat) : List Nat :=
  match nl.getLast? with
  | some w => if w = 32 ∨ w = 9 then nl.dropLast ++ qpQuote w else nl
  | none => nl

/-- `if next_line[0] == dot: next_line = quote(next_line[0:1]) + next_line[1:]`:
hex-escape a leading `.` of the continuation half. -/
def qpDotAdjust (nx : List Nat) : List Nat :=
  match nx with
  | [] => []
  | x :: r => if x = 46 then qpQuote 46 ++ r else x :: r

/-- `_quote_and_cut(ln)`: quote the leading byte; if the line (data plus
terminator) still fits in 77 bytes keep it, otherwise cut at the scanned
position, hex-escape a trailing space/tab of the first half, hex-escape a
leading `.` of the second half, and join with a soft line break `=\n`. -/
def _quote_and_cut (ln0 : List Nat) : List Nat :=
  match ln0 with
  | [] => []
  | b0 :: rest0 =>
    let ln := qpQuote b0 ++ rest0
    if ln.length ≤ 77 then ln
    else
      let pos := cutScan ln.length ln 0 0
      qpSpaceAdjust (ln.take pos) ++ [61, 10] ++ qpDotAdjust (ln.drop pos)

/-- The loop body of `fix_leading_dot`: quote-and-cut a line whose first
byte is `.`, pass any other line through. -/
def dotStuffLine (line : List Nat) : List Nat :=
  match line with
  | [] => []
  | x :: r => if x = 46 then _quote_and_cut (x :: r) else x :: r

/-- `fix_leading_dot(s)`: process line by line; quote-and-cut any line whose
first byte is `.`. -/
def fix_leading_dot (s : List Nat) : List Nat :=
  ((readlinesKeepEnds s).map dotStuffLine).flatten

/-! ## Containers and the MimePart tree -/

/-- The three container variants: `Stream` (lazily-parsed slice), `Body`
(fresh in-memory part, always changed), `Part` (structural shell, always
changed). -/
inductive Container (H : Type) where
  | stream (s : Stream H)
  | bodyc (ct : CType) (hdrs : H) (bval : List Nat)
  | partc (ct : CType) (hdrs : H)

def Container.content_type : Container H → CType
  | .stream s => s.content_type
  | .bodyc ct _ _ => ct
  | .partc ct _ => ct

/-- `container.headers_changed(ignore_prepends)`; `Body`/`Part` always
report `True`. -/
def Container.headers_changed (ops : HeaderOps H) (c : Container H)
    (ignore_prepends : Bool) : Bool :=
  match c with
  | .stream s => s.headers_changed ops ignore_prepends
  | .bodyc _ _ _ => true
  | .partc _ _ => true

/-- `container.body_changed()`; `Body`/`Part` always report `True`. -/
def Container.body_changed : Container H → Bool
  | .stream s => s.body_changed
  | .bodyc _ _ _ => true
  | .partc _ _ => true

/-- `container._stream_prepended_headers(out)`: bytes written. -/
def Container.prependedHeaders (ops : HeaderOps H) : Container H → List Nat
  | .stream s => s.prependedHeaders ops
  | .bodyc _ h _ => ops.prependsBlock h
  | .partc _ h => ops.prependsBlock h

/-- `container.read_message()`: only `Stream` has it (`none` models the
`AttributeError` on the other variants). -/
def Container.readMessage : Container H → Option (List Nat)
  | .stream s => some s.read_message
  | _ => none

/-- `container.string`: only `Stream` has it. -/
def Container.stringAttr : Container H → Option (List Nat)
  | .stream s => some s.string
  | _ => none

/-- `self._container.headers` (loading lazily for `Stream`); the
`valueError` case is the unreachable loaded-without-cache state. -/
def Container.headersE (ops : HeaderOps H) :
    Container H → Except PyErr (Container H × H)
  | .stream s => do
    let s ← s._load_headers ops
    match s._headers with
    | some h => .ok (.stream s, h)
    | none => .error .valueError
  | .bodyc ct h b => .ok (.bodyc ct h b, h)
  | .partc ct h => .ok (.partc ct h, h)

/-- Replace the header state of a container. -/
def Container.withHeaders : Container H → H → Container H
  | .stream s, h => .stream { s with _headers := some h }
  | .bodyc ct _ b, h => .bodyc ct h b
  | .partc ct _, h => .partc ct h

/-- Set the `charset` parameter of the container's content type (one half of
the `MimePart.charset` setter; it stores the lowercased name). -/
def Container.withCharsetParam : Container H → String → Container H
  | .stream s, cs =>
      .stream { s with content_type := { s.content_type with charset := some cs } }
  | .bodyc ct h b, cs => .bodyc { ct with charset := some cs } h b
  | .partc ct h, cs => .partc { ct with charset := some cs } h

/-- A MIME part: a container, ordered children (multipart), at most one
enclosed message (message-container), and the root flag. -/
inductive MimePart (H : Type) where
  | mk (container : Container H) (parts : List (MimePart H))
      (enclosed : Option (MimePart H)) (isRoot : Bool)

def MimePart.containerF : MimePart H → Container H
  | .mk c _ _ _ => c

def MimePart.partsF : MimePart H → List (MimePart H)
  | .mk _ ps _ _ => ps

def MimePart.enclosedF : MimePart H → Option (MimePart H)
  | .mk _ _ e _ => e

def MimePart.isRootF : MimePart H → Bool
  | .mk _ _ _ r => r

/-- `RichPartMixin.walk(with_self, skip_enclosed)` as the list of yielded
nodes: optionally self; for multipart, each child followed by the child's
own walk (`with_self=False`); for a message container (unless skipped), the
enclosed node followed by its walk — `skip_enclosed` is not forwarded there,
matching the source's call with default arguments.  A message container
without an enclosed node is modelled as yielding nothing. -/
def MimePart.walkL (with_self skip_enclosed : Bool) : MimePart H → List (MimePart H)
  | .mk c ps e root =>
    (if with_self then [MimePart.mk c ps e root] else []) ++
    (if c.content_type.is_multipart then
      walkChildren skip_enclosed ps
    else if c.content_type.is_message_container ∧ ¬skip_enclosed then
      match e with
      | some m => m :: m.walkL false false
      | none => []
    else [])
where
  walkChildren (skip : Bool) : List (MimePart H) → List (MimePart H)
    | [] => []
    | p :: ps => (p :: p.walkL false skip) ++ walkChildren skip ps

/-- `MimePart.was_changed(ignore_prepends)`: own headers changed, or —
singlepart — body changed, or — multipart — any child changed (children are
queried with the default `ignore_prepends=False`), or — message container —
the enclosed part changed.  A message container without an enclosed node is
modelled as unchanged. -/
def MimePart.was_changed (ops : HeaderOps H) (ignore_prepends : Bool) :
    MimePart H → Bool
  | .mk c ps e _ =>
    if c.headers_changed ops ignore_prepends then true
    else if c.content_type.is_singlepart then c.body_changed
    else if c.content_type.is_multipart then anyChanged ps
    else if c.content_type.is_message_container then
      match e with
      | some m => m.was_changed ops false
      | none => false
    else false
where
  anyChanged : List (MimePart H) → Bool
    | [] => false
    | p :: ps => p.was_changed ops false || anyChanged ps

/-! ## Decode pipeline (`_decode_body` and friends) -/

/-- `body.replace(u'\xa0', u'&nbsp;')` at the code-point level (the
text/html Outlook workaround); 160 is `\xa0`. -/
def nbspReplace : List Nat → List Nat
  | [] => []
  | 160 :: bs => 38 :: 110 :: 98 :: 115 :: 112 :: 59 :: nbspReplace bs
  | b :: bs => b :: nbspReplace bs

/-- `_decode_transfer_encoding(encoding, body)`.  The base64 branch bridges
the byte string into the character-level `_base64_decode`; its residual
failure propagates as a non-`DecodingError` (`binascii.Error`/`TypeError`). -/
def _decode_transfer_encoding (encoding : String) (body : List Nat) :
    Except PyErr (List Nat) :=
  if encoding = "base64" then
    match _base64_decode (body.map Char.ofNat) with
    | .ok r => .ok r
    | .error _ => .error .valueError
  else if encoding = "quoted-printable" then
    .ok (quopri_decodestring body)
  else
    .ok body

/-- `_decode_charset(ctype, body)`: charset conversion only for `text` main
types, plus the text/html `&nbsp;` workaround for utf-8. -/
def _decode_charset (cops : CharsetOps) (ct : CType) (body : List Nat) :
    Except PyErr (List Nat) :=
  if ct.main ≠ "text" then .ok body
  else do
    let b ← cops.convertToUnicode ct.charset body
    if ct.sub = "html" ∧ ct.charset = some "utf-8" then
      .ok (nbspReplace b)
    else
      .ok b

/-- `_decode_body(content_type, content_encoding, body)`. -/
def _decode_body (cops : CharsetOps) (ct : CType) (encoding : String)
    (body : List Nat) : Except PyErr (List Nat) := do
  let b ← _decode_transfer_encoding encoding body
  _decode_charset cops ct b

/-- `Stream._load_body`: decode and cache the body on first access. -/
def Stream._load_body (hops : HeaderOps H) (cops : CharsetOps) (s : Stream H) :
    Except PyErr (Stream H) :=
  match s._body with
  | some _ => .ok s
  | none => do
    let s ← s._load_headers hops
    match s._headers, s._body_start with
    | some h, some bs =>
      let raw := readSlice s.streamBuf bs s.endPos
      let cte := (hops.findCTE h).getD "7bit"
      let body ← _decode_body cops s.content_type cte raw
      .ok { s with _body := some body }
    | _, _ => .error .valueError

/-- `self._container.body` (the container-level read `_encode_body` uses):
loads lazily for `Stream`; `Part` containers expose `body = None`. -/
def Container.bodyE (hops : HeaderOps H) (cops : CharsetOps) :
    Container H → Except PyErr (Container H × Option (List Nat))
  | .stream s => do
    let s ← s._load_body hops cops
    .ok (.stream s, s._body)
  | .bodyc ct h b => .ok (.bodyc ct h b, some b)
  | .partc ct h => .ok (.partc ct h, none)

/-! ## Encode pipeline (`_encode_body` and friends) -/

/-- `_encode_charset(preferred_charset, text)`: try the preferred charset
(`charset = preferred_charset or 'ascii'`), fall back to utf-8 on any
failure (including the `TypeError`/`LookupError` a `None` or empty name
raises). -/
def _encode_charset (cops : CharsetOps) (preferred : Option String)
    (text : List Nat) : String × List Nat :=
  match preferred with
  | none => ("utf-8", cops.encodeUtf8 text)
  | some cs =>
    match cops.encodeText cs text with
    | some b => (if cs = "" then "ascii" else cs, b)
    | none => ("utf-8", cops.encodeUtf8 text)

/-- `_encode_transfer_encoding(encoding, body)` (PY3 branch; the
`bytes`/`str` conversions are identities in the byte-list model). -/
def _encode_transfer_encoding (sops : StdOps) (encoding : String)
    (body : List Nat) : List Nat :=
  if encoding = "quoted-printable" then
    fix_leading_dot (sops.quopriEncodestring body)
  else if encoding = "base64" then
    sops.emailEncodeBase64 body
  else
    body

/-- `_encode_body(part)`: returns the updated container (caches may load)
and `(charset, content_encoding, body)`.  The `valueError` on a missing body
models the crash a `Part` container's `None` body would cause here. -/
def _encode_body (hops : HeaderOps H) (cops : CharsetOps) (sops : StdOps)
    (c : Container H) :
    Except PyErr (Container H × Option String × String × List Nat) := do
  let ct := c.content_type
  let (c, h) ← c.headersE hops
  let content_encoding := (hops.findCTE h).getD "7bit"
  let (c, bodyOpt) ← c.bodyE hops cops
  match bodyOpt with
  | none => .error .valueError
  | some body =>
    if ct.main = "text" then
      let cb := _encode_charset cops ct.charset body
      let charset := cb.1
      let body := cb.2
      if hops.getDisposition h ≠ some "attachment" then
        match _choose_text_encoding charset content_encoding body with
        | some enc =>
          .ok (c, some charset, enc, _encode_transfer_encoding sops enc body)
        | none => .error .valueError
      else
        .ok (c, some charset, "base64", _encode_transfer_encoding sops "base64" body)
    else
      .ok (c, ct.charset, "base64", _encode_transfer_encoding sops "base64" body)

/-! ## The serializer (`to_stream`, `_to_stream_when_changed`, `to_string`) -/

/-- A seekable output sink (`StringIO`): a buffer and a position.  `write`
overwrites from the position (extending at the end), `seek`/`tell` move and
report the position. -/
structure Sink where
  content : List Nat
  pos : Nat
deriving DecidableEq, Repr

def Sink.write (out : Sink) (s : List Nat) : Sink :=
  ⟨out.content.take out.pos ++ s ++ out.content.drop (out.pos + s.length),
   out.pos + s.length⟩

def Sink.seek (out : Sink) (p : Nat) : Sink :=
  ⟨out.content, p⟩

def Sink.tell (out : Sink) : Nat :=
  out.pos

def Sink.empty : Sink :=
  ⟨[], 0⟩

/-- `'\r\n'`. -/
def _CRLF : List Nat := [13, 10]

/-- The `MimePart.charset` setter restricted to its container effect:
lowercase the name, set the content type's charset parameter, store the
charset parameter on the `Content-Type` header and mark headers changed
(via the collaborator), loading headers first as the `in self.headers`
check does. -/
def Container.setCharsetE (ops : HeaderOps H) (c : Container H) (v : String) :
    Except PyErr (Container H) := do
  let lower := v.toLower
  let (c, h) ← c.headersE ops
  .ok ((c.withCharsetParam lower).withHeaders (ops.setCharsetHeader h lower))

/-- The `MimePart.content_encoding` setter
(`self.headers['Content-Transfer-Encoding'] = WithParams(value)`). -/
def Container.setContentEncodingE (ops : HeaderOps H) (c : Container H)
    (v : String) : Except PyErr (Container H) := do
  let (c, h) ← c.headersE ops
  .ok (c.withHeaders (ops.setContentEncoding h v))

/-- `container.read_body()`: only `Stream` has it. -/
def Container.readBodyE (ops : HeaderOps H) :
    Container H → Except PyErr (Container H × List Nat)
  | .stream s => do
    let r ← s.read_body ops
    .ok (.stream r.1, r.2)
  | .bodyc _ _ _ => .error .attrError
  | .partc _ _ => .error .attrError

/-- The body-preparation phase of the singlepart branch of
`_to_stream_when_changed`: encode (updating charset and
content-transfer-encoding headers) when the body changed, else re-read the
original still-encoded body bytes. -/
def singlepartBody (hops : HeaderOps H) (cops : CharsetOps) (sops : StdOps)
    (c : Container H) : Except PyErr (Container H × List Nat) :=
  if c.body_changed then
    match _encode_body hops cops sops c with
    | .error er => .error er
    | .ok (c2, charsetOpt, encoding, body) =>
      let afterCharset : Except PyErr (Container H) :=
        match charsetOpt with
        | some cs => if cs = "" then .ok c2 else c2.setCharsetE hops cs
        | none => .ok c2
      match afterCharset with
      | .error er => .error er
      | .ok c3 =>
        match c3.setContentEncodingE hops encoding with
        | .error er => .error er
        | .ok c4 => .ok (c4, body)
  else
    c.readBodyE hops

mutual

/-- `MimePart.to_stream(out)`: fast path for unchanged parts; otherwise
regenerate, and on a `DecodingError` rewind to the recorded position and
emit the original bytes (only `decoding` is caught). -/
def MimePart.to_stream (hops : HeaderOps H) (cops : CharsetOps) (sops : StdOps)
    (p : MimePart H) (out : Sink) : Sink × MimePart H × Option PyErr :=
  if p.was_changed hops true = false then
    let out := out.write (p.containerF.prependedHeaders hops)
    match p.containerF.readMessage with
    | some msg => (out.write msg, p, none)
    | none => (out, p, some .attrError)
  else
    let pos0 := out.tell
    match p._to_stream_when_changed hops cops sops out with
    | (out2, p2, none) => (out2, p2, none)
    | (out2, p2, some PyErr.decoding) =>
      match p.containerF.readMessage with
      | some msg => ((out2.seek pos0).write msg, p2, none)
      | none => (out2, p2, some .attrError)
    | (out2, p2, some er) => (out2, p2, some er)

/-- `MimePart._to_stream_when_changed(out)`. -/
def MimePart._to_stream_when_changed (hops : HeaderOps H) (cops : CharsetOps)
    (sops : StdOps) (p : MimePart H) (out : Sink) :
    Sink × MimePart H × Option PyErr :=
  match p with
  | .mk c ps e root =>
    let ct := c.content_type
    if ct.is_singlepart then
      match singlepartBody hops cops sops c with
      | .error er => (out, .mk c ps e root, some er)
      | .ok (c2, body) =>
        match c2.headersE hops with
        | .error er => (out, .mk c2 ps e root, some er)
        | .ok (c3, h) =>
          if hops.nonEmpty h then
            (((out.write (hops.fullBlock h)).write _CRLF).write body,
             .mk c3 ps e root, none)
          else if root then
            (out, .mk c3 ps e root, some .encoding)
          else
            ((out.write _CRLF).write body, .mk c3 ps e root, none)
    else
      match c.headersE hops with
      | .error er => (out, .mk c ps e root, some er)
      | .ok (c2, h) =>
        let out := (out.write (hops.fullBlock h)).write _CRLF
        if ct.is_multipart then
          match streamParts hops cops sops ct.boundaryLine true ps out with
          | (out2, ps2, none) =>
            (out2.write (_CRLF ++ ct.boundaryFinalLine ++ _CRLF),
             .mk c2 ps2 e root, none)
          | (out2, ps2, some er) => (out2, .mk c2 ps2 e root, some er)
        else if ct.is_message_container then
          match e with
          | some m =>
            match m.to_stream hops cops sops out with
            | (out2, m2, err) => (out2, .mk c2 ps (some m2) root, err)
          | none => (out, .mk c2 ps e root, some .attrError)
        else
          (out, .mk c2 ps e root, none)

/-- The child loop of the multipart branch: boundary line before each child
(with a leading CRLF except for the first), then the child's serialization;
a child's uncaught error stops the loop. -/
def streamParts (hops : HeaderOps H) (cops : CharsetOps) (sops : StdOps)
    (bnd : List Nat) (first : Bool) :
    List (MimePart H) → Sink → Sink × List (MimePart H) × Option PyErr
  | [], out => (out, [], none)
  | q :: qs, out =>
    let out := out.write ((if first then [] else _CRLF) ++ bnd ++ _CRLF)
    match q.to_stream hops cops sops out with
    | (out2, q2, none) =>
      match streamParts hops cops sops bnd false qs out2 with
      | (out3, qs2, err) => (out3, q2 :: qs2, err)
    | (out2, q2, some er) => (out2, q2 :: qs, some er)

end

/-- `MimePart.to_string()`: root fast path returns the prepended-header
block followed by the container's original `string`; otherwise serialize
into a fresh sink and return its contents. -/
def MimePart.to_string (hops : HeaderOps H) (cops : CharsetOps) (sops : StdOps)
    (p : MimePart H) : Except PyErr (List Nat × MimePart H) :=
  if p.isRootF = true ∧ p.was_changed hops true = false then
    match p.containerF.stringAttr with
    | some str => .ok (p.containerF.prependedHeaders hops ++ str, p)
    | none => .error .attrError
  else
    match p.to_stream hops cops sops Sink.empty with
    | (out, p2, none) => .ok (out.content, p2)
    | (_, _, some er) => .error er

/-! ## Concrete collaborator instances (used by witnesses) -/

/-- A trivial header collaborator over a unit header state. -/
def unitHeaderOps : HeaderOps Unit :=
  { fromStream := fun _ _ => .ok ((), 0),
    haveChanged := fun _ _ => false,
    fullBlock := fun _ => [],
    prependsBlock := fun _ => [],
    nonEmpty := fun _ => true,
    findCTE := fun _ => none,
    getDisposition := fun _ => none,
    setContentEncoding := fun h _ => h,
    setCharsetHeader := fun h _ => h }

/-- A header collaborator whose parser always raises `DecodingError`. -/
def decodingFailHeaderOps : HeaderOps Unit :=
  { unitHeaderOps with fromStream := fun _ _ => .error .decoding }

def unitCharsetOps : CharsetOps :=
  { convertToUnicode := fun _ b => .ok b,
    encodeText := fun _ b => some b,
    encodeUtf8 := fun b => b }

def unitStdOps : StdOps :=
  { quopriEncodestring := fun b => b,
    emailEncodeBase64 := fun b => b }

/-- A sample singlepart text content type. -/
def ctSingle : CType :=
  ⟨CKind.singlepart, "text", "plain", none, [], []⟩

/-- A sample multipart content type. -/
def ctMulti : CType :=
  ⟨CKind.multipart, "multipart", "mixed", none, [45, 45, 98], [45, 45, 98, 45, 45]⟩

/-! # Theorems -/

/-! ## C6: encoding-strength consistency -/

/-- C6: for transfer encodings `a`, `b` among 7bit, quoted-printable,
base64 and 8bit, `_stronger_encoding` is defined, absorbs its own result
(`stronger(a, stronger(a,b)) = stronger(a,b)`), and the result is never
strictly weaker than either input under the weight order
`7bit < quoted-printable = base64 < 8bit`. -/
theorem stronger_encoding_consistent (a b : String)
    (ha : a ∈ knownEncodings) (hb : b ∈ knownEncodings) :
    _stronger_encoding a b = some ((_stronger_encoding a b).getD "") ∧
    _stronger_encoding a ((_stronger_encoding a b).getD "") = _stronger_encoding a b ∧
    weightsGetD a ≤ weightsGetD ((_stronger_encoding a b).getD "") ∧
    weightsGetD b ≤ weightsGetD ((_stronger_encoding a b).getD "") := by
  simp only [knownEncodings, List.mem_cons, List.mem_singleton,
    List.not_mem_nil, or_false] at ha hb
  rcases ha with rfl | rfl | rfl | rfl <;>
    rcases hb with rfl | rfl | rfl | rfl <;> decide

/-- Witness for C6 at `a = "7bit"`, `b = "base64"`. -/
theorem stronger_encoding_consistent_witness :
    _stronger_encoding "7bit" "base64" =
      some ((_stronger_encoding "7bit" "base64").getD "") ∧
    _stronger_encoding "7bit" ((_stronger_encoding "7bit" "base64").getD "") =
      _stronger_encoding "7bit" "base64" ∧
    weightsGetD "7bit" ≤ weightsGetD ((_stronger_encoding "7bit" "base64").getD "") ∧
    weightsGetD "base64" ≤ weightsGetD ((_stronger_encoding "7bit" "base64").getD "") :=
  stronger_encoding_consistent "7bit" "base64" (by decide) (by decide)

/-! ## C7: text encoding choice -/

/-- C7: for a known previously-declared encoding, `_choose_text_encoding`
keeps it when the charset is ascii/iso-8859-1/us-ascii and no line reaches
599 bytes; otherwise (charset outside the set, or a line at or above 599
bytes) it returns the stronger of the declared encoding and
quoted-printable, which is never weaker than the declared encoding. -/
theorem choose_text_encoding_spec (charset pref : String) (body : List Nat)
    (hp : pref ∈ knownEncodings) :
    ((charset = "ascii" ∨ charset = "iso-8859-1" ∨ charset = "us-ascii") →
      has_long_lines body 599 = false →
      _choose_text_encoding charset pref body = some pref) ∧
    ((¬(charset = "ascii" ∨ charset = "iso-8859-1" ∨ charset = "us-ascii") ∨
        has_long_lines body 599 = true) →
      _choose_text_encoding charset pref body =
        _stronger_encoding pref "quoted-printable" ∧
      ∀ c, _choose_text_encoding charset pref body = some c →
        weightsGetD pref ≤ weightsGetD c) := by
  constructor
  · intro hcs hll
    unfold _choose_text_encoding
    rw [if_pos hcs, hll]
    simp
  · intro hcase
    have hstep : _choose_text_encoding charset pref body =
        _stronger_encoding pref "quoted-printable" := by
      unfold _choose_text_encoding
      rcases hcase with hno | hll
      · rw [if_neg hno]
      · by_cases hcs : charset = "ascii" ∨ charset = "iso-8859-1" ∨ charset = "us-ascii"
        · rw [if_pos hcs, hll]
          simp
        · rw [if_neg hcs]
    refine ⟨hstep, ?_⟩
    intro c hc
    rw [hstep] at hc
    unfold _stronger_encoding at hc
    simp only [show weightsFind "quoted-printable" = some 1 from rfl,
      Option.some.injEq] at hc
    by_cases hw : weightsGetD pref ≥ 1
    · rw [if_pos hw] at hc
      subst hc
      exact le_refl _
    · rw [if_neg hw] at hc
      subst hc
      show weightsGetD pref ≤ weightsGetD "quoted-printable"
      have h1 : weightsGetD "quoted-printable" = 1 := rfl
      omega

/-- Witness for C7 at charset `utf-8` (outside the keep set), previous
encoding `7bit`, empty body. -/
theorem choose_text_encoding_spec_witness :
    _choose_text_encoding "utf-8" "7bit" [] =
      _stronger_encoding "7bit" "quoted-printable" ∧
    ∀ c, _choose_text_encoding "utf-8" "7bit" [] = some c →
      weightsGetD "7bit" ≤ weightsGetD c :=
  (choose_text_encoding_spec "utf-8" "7bit" [] (by decide)).2 (by decide)

/-! ## C9: body write semantics -/

/-- C9: writing a value equal to the currently-decoded body is a no-op
(nothing stored, change flag untouched, in particular `body_changed()` stays
false); writing a different value stores it, sets `body_changed()`, and
touches nothing else of the container (no re-encoding at write time). -/
theorem stream_set_body_spec (s : Stream H) (value : Option (List Nat)) :
    (value = s._body → s._set_body value = s) ∧
    (value ≠ s._body →
      (s._set_body value)._body = value ∧
      (s._set_body value).body_changed = true ∧
      (s._set_body value).content_type = s.content_type ∧
      (s._set_body value).start = s.start ∧
      (s._set_body value).endPos = s.endPos ∧
      (s._set_body value).string = s.string ∧
      (s._set_body value).streamBuf = s.streamBuf ∧
      (s._set_body value)._headers = s._headers ∧
      (s._set_body value)._body_start = s._body_start) := by
  constructor
  · intro hev
    simp [Stream._set_body, hev]
  · intro hne
    simp [Stream._set_body, Stream.body_changed, hne]

/-- Witness for C9: a fresh container, written with a new body value. -/
theorem stream_set_body_spec_witness :
    (((Stream.make ctSingle 0 0 [] [] : Stream Unit))._set_body (some [1]))._body
        = some [1] ∧
    (((Stream.make ctSingle 0 0 [] [] : Stream Unit))._set_body (some [1])).body_changed
        = true :=
  ⟨((stream_set_body_spec (Stream.make ctSingle 0 0 [] [] : Stream Unit) (some [1])).2
      (by simp [Stream.make])).1,
   ((stream_set_body_spec (Stream.make ctSingle 0 0 [] [] : Stream Unit) (some [1])).2
      (by simp [Stream.make])).2.1⟩

/-! ## C10: the body-changed flag is monotone -/

theorem set_body_preserves_flag (s : Stream H) (v : Option (List Nat))
    (h : s._body_changed = true) : (s._set_body v)._body_changed = true := by
  unfold Stream._set_body
  split <;> simpa

theorem load_headers_preserves_flag (ops : HeaderOps H) (s s2 : Stream H)
    (h : s._load_headers ops = .ok s2) : s2._body_changed = s._body_changed := by
  unfold Stream._load_headers at h
  cases hh : s._headers with
  | some hd =>
    rw [hh] at h
    cases h
    rfl
  | none =>
    rw [hh] at h
    cases hfs : ops.fromStream s.streamBuf s.start with
    | error e =>
      rw [hfs] at h
      simp [Bind.bind, Except.bind] at h
    | ok pr =>
      rw [hfs] at h
      simp only [Bind.bind, Except.bind, Except.ok.injEq] at h
      rw [← h]

theorem load_body_preserves_flag (hops : HeaderOps H) (cops : CharsetOps)
    (s s2 : Stream H) (h : s._load_body hops cops = .ok s2) :
    s2._body_changed = s._body_changed := by
  unfold Stream._load_body at h
  cases hb : s._body with
  | some bd =>
    rw [hb] at h
    cases h
    rfl
  | none =>
    rw [hb] at h
    cases hlh : s._load_headers hops with
    | error e =>
      rw [hlh] at h
      simp [Bind.bind, Except.bind] at h
    | ok s1 =>
      rw [hlh] at h
      simp only [Bind.bind, Except.bind] at h
      have h1 := load_headers_preserves_flag hops s s1 hlh
      cases hh : s1._headers with
      | none =>
        rw [hh] at h
        cases hbs : s1._body_start <;> rw [hbs] at h <;> simp at h
      | some hd =>
        rw [hh] at h
        cases hbs : s1._body_start with
        | none =>
          rw [hbs] at h
          simp at h
        | some bs =>
          rw [hbs] at h
          dsimp only at h
          cases hdec : _decode_body cops s1.content_type
              ((hops.findCTE hd).getD "7bit")
              (readSlice s1.streamBuf bs s1.endPos) with
          | error e =>
            rw [hdec] at h
            simp [Bind.bind, Except.bind] at h
          | ok body =>
            rw [hdec] at h
            simp only [Bind.bind, Except.bind, Except.ok.injEq] at h
            rw [← h]
            exact h1

theorem read_body_preserves_flag (ops : HeaderOps H) (s s2 : Stream H)
    (b : List Nat) (h : s.read_body ops = .ok (s2, b)) :
    s2._body_changed = s._body_changed := by
  unfold Stream.read_body at h
  cases hlh : s._load_headers ops with
  | error e =>
    rw [hlh] at h
    simp [Bind.bind, Except.bind] at h
  | ok s1 =>
    rw [hlh] at h
    simp only [Bind.bind, Except.bind] at h
    have h1 := load_headers_preserves_flag ops s s1 hlh
    cases hbs : s1._body_start with
    | none =>
      rw [hbs] at h
      simp at h
    | some bs =>
      rw [hbs] at h
      simp only [Except.ok.injEq, Prod.mk.injEq] at h
      rw [← h.1]
      exact h1

/-- C10: once `body_changed()` is true it stays true: any later body write
(including one writing back the originally loaded value) keeps it true, and
the lazy reads (`_load_headers`, `_load_body`, `read_body`) never touch it. -/
theorem stream_body_changed_monotone (hops : HeaderOps H) (cops : CharsetOps)
    (s : Stream H) (h : s.body_changed = true) :
    (∀ v, (s._set_body v).body_changed = true) ∧
    (∀ s2, s._load_headers hops = .ok s2 → s2.body_changed = true) ∧
    (∀ s2, s._load_body hops cops = .ok s2 → s2.body_changed = true) ∧
    (∀ s2 b, s.read_body hops = .ok (s2, b) → s2.body_changed = true) := by
  refine ⟨fun v => set_body_preserves_flag s v h, fun s2 h2 => ?_,
    fun s2 h2 => ?_, fun s2 b h2 => ?_⟩
  · rw [Stream.body_changed, load_headers_preserves_flag hops s s2 h2]
    exact h
  · rw [Stream.body_changed, load_body_preserves_flag hops cops s s2 h2]
    exact h
  · rw [Stream.body_changed, read_body_preserves_flag hops s s2 b h2]
    exact h

/-- Witness for C10: a changed fresh container; reloading headers with the
trivial collaborator keeps the flag. -/
theorem stream_body_changed_monotone_witness :
    (((Stream.make ctSingle 0 0 [] [] : Stream Unit)._set_body
        (some [1]))._set_body none).body_changed = true :=
  (stream_body_changed_monotone unitHeaderOps unitCharsetOps
    ((Stream.make ctSingle 0 0 [] [] : Stream Unit)._set_body (some [1]))
    (by simp [Stream.make, Stream._set_body, Stream.body_changed])).1 none

/-! ## C8: walk over a two-level multipart tree -/

theorem walkL_leaf (g : MimePart H)
    (hg : g.containerF.content_type.kind = CKind.singlepart) :
    g.walkL false false = [] := by
  cases g with
  | mk c ps e r =>
    simp only [MimePart.containerF] at hg
    unfold MimePart.walkL
    simp [CType.is_multipart, CType.is_message_container, hg]

theorem walkChildren_leaves (gs : List (MimePart H))
    (hgs : ∀ g ∈ gs, g.containerF.content_type.kind = CKind.singlepart) :
    MimePart.walkL.walkChildren false gs = gs := by
  induction gs with
  | nil => rfl
  | cons g gs ih =>
    unfold MimePart.walkL.walkChildren
    rw [walkL_leaf g (hgs g (by simp)), ih (fun x hx => hgs x (by simp [hx]))]
    simp

theorem walkL_depth1 (ch : MimePart H)
    (hm : ch.containerF.content_type.kind = CKind.multipart)
    (hgs : ∀ g ∈ ch.partsF, g.containerF.content_type.kind = CKind.singlepart) :
    ch.walkL false false = ch.partsF := by
  cases ch with
  | mk c ps e r =>
    simp only [MimePart.containerF] at hm
    simp only [MimePart.partsF] at hgs ⊢
    unfold MimePart.walkL
    simp only [CType.is_multipart, hm, decide_True, if_true, if_false,
      Bool.false_eq_true, List.nil_append]
    exact walkChildren_leaves ps hgs

theorem walkChildren_depth2 (children : List (MimePart H)) (M : Nat)
    (hch : ∀ ch ∈ children,
      ch.containerF.content_type.kind = CKind.multipart ∧
      ch.partsF.length = M ∧
      ∀ g ∈ ch.partsF, g.containerF.content_type.kind = CKind.singlepart) :
    MimePart.walkL.walkChildren false children =
      (children.map (fun ch => ch :: ch.partsF)).flatten := by
  induction children with
  | nil => rfl
  | cons ch chs ih =>
    unfold MimePart.walkL.walkChildren
    obtain ⟨hm, _, hgs⟩ := hch ch (by simp)
    rw [walkL_depth1 ch hm hgs, ih (fun x hx => hch x (by simp [hx]))]
    simp

theorem flatten_cons_parts_length (children : List (MimePart H)) (M : Nat)
    (hlen : ∀ ch ∈ children, ch.partsF.length = M) :
    ((children.map (fun ch => ch :: ch.partsF)).flatten).length =
      children.length * (1 + M) := by
  induction children with
  | nil => simp
  | cons ch chs ih =>
    simp only [List.map_cons, List.flatten_cons, List.length_append,
      List.length_cons]
    rw [ih (fun x hx => hlen x (by simp [hx])), hlen ch (by simp)]
    ring

/-- C8: for a multipart node with `N` children, each itself multipart with
`M` singlepart children, `walk(with_self=True)` yields the node, then each
child immediately followed by that child's children, left to right — in
particular `1 + N + N*M` entries, and no node twice whenever the nodes are
pairwise distinct. -/
theorem walk_depth2_count_order (c : Container H) (e : Option (MimePart H))
    (r : Bool) (children : List (MimePart H)) (N M : Nat)
    (hct : c.content_type.kind = CKind.multipart)
    (hN : children.length = N)
    (hch : ∀ ch ∈ children,
      ch.containerF.content_type.kind = CKind.multipart ∧
      ch.partsF.length = M ∧
      ∀ g ∈ ch.partsF, g.containerF.content_type.kind = CKind.singlepart) :
    (MimePart.mk c children e r).walkL true false =
      MimePart.mk c children e r ::
        (children.map (fun ch => ch :: ch.partsF)).flatten ∧
    ((MimePart.mk c children e r).walkL true false).length = 1 + N + N * M ∧
    ((MimePart.mk c children e r ::
        (children.map (fun ch => ch :: ch.partsF)).flatten).Nodup →
      ((MimePart.mk c children e r).walkL true false).Nodup) := by
  have hmain : (MimePart.mk c children e r).walkL true false =
      MimePart.mk c children e r ::
        (children.map (fun ch => ch :: ch.partsF)).flatten := by
    unfold MimePart.walkL
    simp only [CType.is_multipart, hct]
    rw [walkChildren_depth2 children M hch]
    simp
  refine ⟨hmain, ?_, ?_⟩
  · rw [hmain]
    simp only [List.length_cons]
    rw [flatten_cons_parts_length children M (fun x hx => (hch x hx).2.1), hN]
    ring
  · intro hnd
    rw [hmain]
    exact hnd

/-- Witness for C8: two multipart children with one singlepart leaf each
(`N = 2`, `M = 1`); the walk yields five pairwise distinct nodes. -/
theorem walk_depth2_count_order_witness :
    ((MimePart.mk (Container.partc ctMulti ())
      [MimePart.mk (Container.partc ctMulti ())
        [MimePart.mk (Container.partc ctSingle ()) [] none false] none false,
       MimePart.mk (Container.partc { ctMulti with sub := "related" } ())
        [MimePart.mk (Container.partc { ctSingle with sub := "html" } ()) [] none false]
        none false]
      none true).walkL true false).length = 1 + 2 + 2 * 1 :=
  (walk_depth2_count_order (Container.partc ctMulti ()) none true
    [MimePart.mk (Container.partc ctMulti ())
      [MimePart.mk (Container.partc ctSingle ()) [] none false] none false,
     MimePart.mk (Container.partc { ctMulti with sub := "related" } ())
      [MimePart.mk (Container.partc { ctSingle with sub := "html" } ()) [] none false]
      none false]
    2 1 rfl rfl
    (by
      intro ch hch
      simp only [List.mem_cons, List.not_mem_nil, or_false] at hch
      rcases hch with rfl | rfl <;>
        refine ⟨rfl, rfl, ?_⟩ <;>
        · intro g hg
          simp only [MimePart.partsF, List.mem_cons, List.not_mem_nil,
            or_false] at hg
          rw [hg]
          rfl)).2.1

/-! ## C1: byte-for-byte round-trip of an unmutated parsed tree -/

/-- A `Stream` container untouched since parsing: the body was never
overwritten, and headers — if they were ever loaded — report no change under
either flag and serialize an empty prepends block. -/
def StreamUnmutated (ops : HeaderOps H) (s : Stream H) : Prop :=
  s._body_changed = false ∧
  ∀ h, s._headers = some h →
    (∀ b, ops.haveChanged h b = false) ∧ ops.prependsBlock h = []

/-- A parsed tree with no mutation anywhere: every node is backed by an
unmutated `Stream` container. -/
inductive TreeUnmutated (ops : HeaderOps H) : MimePart H → Prop where
  | mk (c : Container H) (ps : List (MimePart H)) (e : Option (MimePart H))
      (r : Bool)
      (hc : ∃ s, c = .stream s ∧ StreamUnmutated ops s)
      (hps : ∀ p ∈ ps, TreeUnmutated ops p)
      (he : ∀ m, e = some m → TreeUnmutated ops m) :
      TreeUnmutated ops (.mk c ps e r)

theorem anyChanged_eq_false (ops : HeaderOps H) (ps : List (MimePart H))
    (h : ∀ p ∈ ps, ∀ ig, p.was_changed ops ig = false) :
    MimePart.was_changed.anyChanged ops ps = false := by
  induction ps with
  | nil => rfl
  | cons p ps ih =>
    unfold MimePart.was_changed.anyChanged
    rw [h p (by simp) false, ih (fun q hq => h q (by simp [hq]))]
    rfl

theorem was_changed_of_unmutated (ops : HeaderOps H) (p : MimePart H)
    (h : TreeUnmutated ops p) : ∀ ig, p.was_changed ops ig = false := by
  induction h with
  | mk c ps e r hc hps he ihps ihe =>
    intro ig
    obtain ⟨s, rfl, hs⟩ := hc
    have hhc : (Container.stream s).headers_changed ops ig = false := by
      simp only [Container.headers_changed, Stream.headers_changed]
      cases hh : s._headers with
      | none => rfl
      | some hd => exact (hs.2 hd hh).1 ig
    unfold MimePart.was_changed
    rw [hhc]
    simp only [Bool.false_eq_true, if_false]
    by_cases h1 : (Container.stream s).content_type.is_singlepart = true
    · rw [if_pos h1]
      exact hs.1
    · rw [if_neg h1]
      by_cases h2 : (Container.stream s).content_type.is_multipart = true
      · rw [if_pos h2]
        exact anyChanged_eq_false ops ps ihps
      · rw [if_neg h2]
        by_cases h3 : (Container.stream s).content_type.is_message_container = true
        · rw [if_pos h3]
          cases e with
          | none => rfl
          | some m => exact ihe m rfl false
        · rw [if_neg h3]

theorem sink_write_nil (out : Sink) : out.write [] = out := by
  cases out with
  | mk content pos =>
    simp [Sink.write]

/-- C1: a root part backed by a `Stream` container over the parsed bytes,
with no header or body mutation anywhere in the tree, serializes to exactly
the original input bytes: `to_string()` returns them, and `to_stream`
appends exactly them to the sink.  `hparse` is the top-level parser's
guarantee that the container's `string` is its slice of the shared buffer. -/
theorem roundtrip_unmutated_tree (hops : HeaderOps H) (cops : CharsetOps)
    (sops : StdOps) (p : MimePart H) (s : Stream H)
    (hroot : p.isRootF = true)
    (hcont : p.containerF = .stream s)
    (hunm : TreeUnmutated hops p)
    (hparse : s.string = s.read_message) :
    p.to_string hops cops sops = .ok (s.string, p) ∧
    ∀ out : Sink, p.to_stream hops cops sops out = (out.write s.string, p, none) := by
  have hwc := was_changed_of_unmutated hops p hunm
  have hpre : p.containerF.prependedHeaders hops = [] := by
    rw [hcont]
    simp only [Container.prependedHeaders, Stream.prependedHeaders]
    cases hh : s._headers with
    | none => rfl
    | some hd =>
      cases hunm with
      | mk c ps e r hc hps he =>
        obtain ⟨s2, hceq, hs2⟩ := hc
        simp only [MimePart.containerF] at hcont
        rw [hcont] at hceq
        cases hceq
        exact (hs2.2 hd hh).2
  constructor
  · unfold MimePart.to_string
    rw [if_pos ⟨hroot, hwc true⟩, hcont]
    simp only [Container.stringAttr]
    rw [hcont] at hpre
    rw [hpre]
    rfl
  · intro out
    unfold MimePart.to_stream
    rw [if_pos (hwc true), hpre, sink_write_nil, hcont]
    simp only [Container.readMessage]
    rw [← hparse]

/-- Witness for C1: a one-node parsed tree over the bytes `[1,2,3,4]`. -/
theorem roundtrip_unmutated_tree_witness :
    (MimePart.mk (Container.stream
        (Stream.make ctSingle 0 3 [1, 2, 3, 4] [1, 2, 3, 4] : Stream Unit))
      [] none true).to_string unitHeaderOps unitCharsetOps unitStdOps =
      .ok ([1, 2, 3, 4],
        MimePart.mk (Container.stream
          (Stream.make ctSingle 0 3 [1, 2, 3, 4] [1, 2, 3, 4])) [] none true) :=
  (roundtrip_unmutated_tree unitHeaderOps unitCharsetOps unitStdOps
    (MimePart.mk (Container.stream
      (Stream.make ctSingle 0 3 [1, 2, 3, 4] [1, 2, 3, 4])) [] none true)
    (Stream.make ctSingle 0 3 [1, 2, 3, 4] [1, 2, 3, 4])
    rfl rfl
    (TreeUnmutated.mk _ _ _ _
      ⟨Stream.make ctSingle 0 3 [1, 2, 3, 4] [1, 2, 3, 4], rfl,
        ⟨rfl, fun h hcontra => by simp [Stream.make] at hcontra⟩⟩
      (fun q hq => absurd hq (List.not_mem_nil q))
      (fun m hm => by simp at hm))
    (by decide)).1

/-! ## C2: DecodingError fallback during serialization -/

theorem sink_write_at_reads_back (c : List Nat) (p : Nat) (m : List Nat)
    (hp : p ≤ c.length) :
    ((((Sink.mk c p).write m).content.drop p).take m.length) = m := by
  simp only [Sink.write]
  have hlen : (c.take p).length = p := by
    simp [hp]
  rw [List.append_assoc, List.drop_append_of_le_length (le_of_eq hlen.symm)]
  have h0 : (c.take p).drop p = [] := by
    apply List.drop_eq_nil_of_le
    simp [hp]
  rw [h0, List.nil_append]
  exact List.take_left' rfl

/-- C2: for a changed `Stream`-backed part whose regeneration fails with a
`DecodingError`, `to_stream` rewinds the sink to the position recorded
before the part began writing, writes the part's original unmodified bytes
there instead, and returns without an error; the original bytes are read
back at the recorded position. -/
theorem to_stream_decoding_fallback (hops : HeaderOps H) (cops : CharsetOps)
    (sops : StdOps) (p p2 : MimePart H) (s : Stream H) (out out2 : Sink)
    (hcont : p.containerF = .stream s)
    (hch : p.was_changed hops true = true)
    (hfail : p._to_stream_when_changed hops cops sops out =
      (out2, p2, some .decoding)) :
    p.to_stream hops cops sops out =
      ((out2.seek out.tell).write s.read_message, p2, none) ∧
    (out.tell ≤ out2.content.length →
      (((((out2.seek out.tell).write s.read_message).content.drop
          out.tell).take s.read_message.length)) = s.read_message) := by
  constructor
  · have hne : ¬(p.was_changed hops true = false) := by
      rw [hch]
      exact fun h => nomatch h
    unfold MimePart.to_stream
    rw [if_neg hne, hfail, hcont]
    rfl
  · intro hle
    cases out2 with
    | mk c2 p2c => exact sink_write_at_reads_back c2 out.tell s.read_message hle

/-- Witness for C2: a changed singlepart part whose header parse raises
`DecodingError` during regeneration; serialization falls back to the
original bytes `[7, 8]`. -/
theorem to_stream_decoding_fallback_witness :
    (MimePart.mk (Container.stream
        ((Stream.make ctSingle 0 1 [7, 8] [7, 8] : Stream Unit)._set_body
          (some [1]))) [] none true).to_stream
      decodingFailHeaderOps unitCharsetOps unitStdOps Sink.empty =
    ((Sink.empty.seek 0).write [7, 8],
      MimePart.mk (Container.stream
        ((Stream.make ctSingle 0 1 [7, 8] [7, 8])._set_body (some [1])))
        [] none true, none) :=
  (to_stream_decoding_fallback decodingFailHeaderOps unitCharsetOps unitStdOps
    (MimePart.mk (Container.stream
      ((Stream.make ctSingle 0 1 [7, 8] [7, 8] : Stream Unit)._set_body
        (some [1]))) [] none true)
    (MimePart.mk (Container.stream
      ((Stream.make ctSingle 0 1 [7, 8] [7, 8] : Stream Unit)._set_body
        (some [1]))) [] none true)
    ((Stream.make ctSingle 0 1 [7, 8] [7, 8])._set_body (some [1]))
    Sink.empty Sink.empty rfl
    (by decide)
    (by
      simp [MimePart._to_stream_when_changed, singlepartBody, _encode_body,
        Container.headersE, Stream._load_headers, decodingFailHeaderOps,
        unitHeaderOps, Stream.make, Stream._set_body, Container.content_type,
        CType.is_singlepart, ctSingle, Container.body_changed,
        Stream.body_changed, Bind.bind, Except.bind])).1

/-! ## C3 / C4: base64 lemmas -/

theorem b64CharVal_alphaChar : ∀ v < 64, b64CharVal (b64AlphaChar v) = some v := by
  decide

theorem alphaChar_ne_pad : ∀ v < 64, b64AlphaChar v ≠ '=' := by
  decide

theorem alphaChar_alpha : ∀ v < 64, isB64Alpha (b64AlphaChar v) = true := by
  decide

theorem alphaChar_ascii : ∀ v < 64, (b64AlphaChar v).toNat < 128 := by
  decide

theorem b64CharVal_none_of_not_alpha (c : Char) (h : isB64Alpha c = false) :
    b64CharVal c = none := by
  unfold isB64Alpha at h
  simp only [Bool.or_eq_false_iff] at h
  obtain ⟨⟨⟨⟨hAZ, haz⟩, h09⟩, hplus⟩, hslash⟩ := h
  unfold b64CharVal
  rw [if_neg (by simp [hAZ]), if_neg (by simp [haz]), if_neg (by simp [h09]),
    if_neg (by simpa using hplus), if_neg (by simpa using hslash)]

theorem b64CharVal_isSome_of_alpha (c : Char) (h : isB64Alpha c = true) :
    c ≠ '=' ∧ ∃ v, b64CharVal c = some v := by
  constructor
  · rintro rfl
    revert h
    decide
  · unfold b64CharVal
    by_cases h1 : (decide ('A' ≤ c) && decide (c ≤ 'Z')) = true
    · rw [if_pos h1]; exact ⟨_, rfl⟩
    · rw [if_neg h1]
      by_cases h2 : (decide ('a' ≤ c) && decide (c ≤ 'z')) = true
      · rw [if_pos h2]; exact ⟨_, rfl⟩
      · rw [if_neg h2]
        by_cases h3 : (decide ('0' ≤ c) && decide (c ≤ '9')) = true
        · rw [if_pos h3]; exact ⟨_, rfl⟩
        · rw [if_neg h3]
          by_cases h4 : c = '+'
          · rw [if_pos h4]; exact ⟨_, rfl⟩
          · rw [if_neg h4]
            by_cases h5 : c = '/'
            · rw [if_pos h5]; exact ⟨_, rfl⟩
            · exfalso
              unfold isB64Alpha at h
              simp only [h1, h2, h3, Bool.false_or, Bool.or_eq_true,
                decide_eq_true_eq] at h
              tauto

/-- Characters outside the alphabet and distinct from `'='` are identity
steps of the decoder: filtering them away does not change the machine. -/
theorem a2b_filter_keep (s : List Char) :
    ∀ quad pads,
      a2b_base64 (s.filter (fun c => isB64Alpha c || decide (c = '='))) quad pads =
        a2b_base64 s quad pads := by
  induction s with
  | nil => intro quad pads; rfl
  | cons c s ih =>
    intro quad pads
    by_cases hk : (isB64Alpha c || decide (c = '=')) = true
    · rw [List.filter_cons_of_pos (by simpa using hk)]
      by_cases hc : c = '='
      · subst hc
        simp only [a2b_base64, if_true]
        by_cases hq : 2 ≤ quad.length ∧ 4 ≤ quad.length + (pads + 1)
        · rw [if_pos hq, if_pos hq]
        · rw [if_neg hq, if_neg hq]
          exact ih quad (pads + 1)
      · simp only [a2b_base64, if_neg hc]
        cases hv : b64CharVal c with
        | none =>
          simp only [hv]
          exact ih quad pads
        | some v =>
          simp only [hv]
          rcases quad with _ | ⟨q0, _ | ⟨q1, _ | ⟨q2, _ | ⟨q3, qr⟩⟩⟩⟩ <;>
            simp only [ih]
    · rw [List.filter_cons_of_neg (by simpa using hk)]
      simp only [Bool.or_eq_true, not_or] at hk
      have hne : ¬(c = '=') := by
        intro hcc
        exact hk.2 (by simp [hcc])
      have hal : isB64Alpha c = false := by
        cases hi : isB64Alpha c with
        | false => rfl
        | true => exact absurd hi hk.1
      conv_rhs => rw [a2b_base64]
      rw [if_neg hne, b64CharVal_none_of_not_alpha c hal]
      exact ih quad pads

/-- One full quad of data characters is consumed atomically, emitting its
three bytes in front of whatever the rest decodes to. -/
theorem a2b_quad_step (c1 c2 c3 c4 : Char) (v1 v2 v3 v4 : Nat) (rest : List Char)
    (h1 : b64CharVal c1 = some v1) (n1 : c1 ≠ '=')
    (h2 : b64CharVal c2 = some v2) (n2 : c2 ≠ '=')
    (h3 : b64CharVal c3 = some v3) (n3 : c3 ≠ '=')
    (h4 : b64CharVal c4 = some v4) (n4 : c4 ≠ '=') :
    a2b_base64 (c1 :: c2 :: c3 :: c4 :: rest) [] 0 =
      (a2b_base64 rest [] 0).map
        (fun r => (v1 * 4 + v2 / 16) :: (v2 % 16 * 16 + v3 / 4) ::
          (v3 % 4 * 64 + v4) :: r) := by
  simp only [a2b_base64, h1, h2, h3, h4, eq_false n1, eq_false n2, eq_false n3,
    eq_false n4, if_false]
  cases a2b_base64 rest [] 0 <;> simp [Except.map]

/-- A run of complete alphabet quads decodes to a fixed byte prefix in front
of the decode of anything that follows. -/
theorem allAlpha_quads : ∀ (t : List Char), (∀ c ∈ t, isB64Alpha c = true) →
    t.length % 4 = 0 →
    ∃ out, ∀ rest, a2b_base64 (t ++ rest) [] 0 =
      (a2b_base64 rest [] 0).map (fun r => out ++ r)
  | [], _, _ => ⟨[], fun rest => by
      simp only [List.nil_append]
      cases h : a2b_base64 rest [] 0 <;> simp [Except.map, h]⟩
  | [_], _, hlen => absurd hlen (by simp)
  | [_, _], _, hlen => absurd hlen (by simp)
  | [_, _, _], _, hlen => absurd hlen (by simp)
  | c1 :: c2 :: c3 :: c4 :: t', hall, hlen => by
    obtain ⟨ne1, v1, hv1⟩ := b64CharVal_isSome_of_alpha c1 (hall c1 (by simp))
    obtain ⟨ne2, v2, hv2⟩ := b64CharVal_isSome_of_alpha c2 (hall c2 (by simp))
    obtain ⟨ne3, v3, hv3⟩ := b64CharVal_isSome_of_alpha c3 (hall c3 (by simp))
    obtain ⟨ne4, v4, hv4⟩ := b64CharVal_isSome_of_alpha c4 (hall c4 (by simp))
    obtain ⟨out', hout'⟩ := allAlpha_quads t'
      (fun c hc => hall c (by simp [hc]))
      (by simp only [List.length_cons] at hlen; omega)
    refine ⟨(v1 * 4 + v2 / 16) :: (v2 % 16 * 16 + v3 / 4) ::
      (v3 % 4 * 64 + v4) :: out', fun rest => ?_⟩
    have hstep := a2b_quad_step c1 c2 c3 c4 v1 v2 v3 v4 (t' ++ rest)
      hv1 ne1 hv2 ne2 hv3 ne3 hv4 ne4
    simp only [List.cons_append]
    rw [hstep, hout' rest]
    cases a2b_base64 rest [] 0 <;> simp [Except.map]

/-- Appending four pad characters after complete alphabet quads does not
change the decode (the pads are skipped with an empty quad in progress). -/
theorem a2b_pad4 (t : List Char) (hall : ∀ c ∈ t, isB64Alpha c = true)
    (hlen : t.length % 4 = 0) :
    a2b_base64 (t ++ List.replicate 4 '=') [] 0 = a2b_base64 t [] 0 := by
  obtain ⟨out, hout⟩ := allAlpha_quads t hall hlen
  have ht : a2b_base64 t [] 0 = (a2b_base64 ([] : List Char) [] 0).map
      (fun r => out ++ r) := by
    have := hout []
    rwa [List.append_nil] at this
  rw [hout, ht]
  rfl

theorem b64decode_pad4 (t : List Char) (hall : ∀ c ∈ t, isB64Alpha c = true)
    (hlen : t.length % 4 = 0) :
    b64decode (t ++ List.replicate 4 '=') = b64decode t := by
  unfold b64decode
  have hall_eq : (t ++ List.replicate 4 '=').all (fun c => c.toNat < 128) =
      t.all (fun c => c.toNat < 128) := by
    simp [List.all_append]
  rw [hall_eq]
  by_cases h : t.all (fun c => decide (c.toNat < 128)) = true
  · rw [if_pos h, if_pos h]
    exact a2b_pad4 t hall hlen
  · rw [if_neg h, if_neg h]

/-- The encoder-decoder round trip at the machine level: decoding the
standard (unwrapped) encoding of any byte string gives it back. -/
theorem b64e_roundtrip : ∀ (x : List Nat), (∀ b ∈ x, b < 256) →
    a2b_base64 (b64e x) [] 0 = .ok x
  | [], _ => rfl
  | [a], h => by
    have ha : a < 256 := h a (by simp)
    have e1 := b64CharVal_alphaChar (a / 4) (by omega)
    have n1 := alphaChar_ne_pad (a / 4) (by omega)
    have e2 := b64CharVal_alphaChar (a % 4 * 16) (by omega)
    have n2 := alphaChar_ne_pad (a % 4 * 16) (by omega)
    simp only [b64e, a2b_base64, e1, e2, eq_false n1, eq_false n2, if_false]
    simp only [List.length_cons, List.length_nil, Except.map]
    norm_num
    omega
  | [a, b], h => by
    have ha : a < 256 := h a (by simp)
    have hb : b < 256 := h b (by simp)
    have e1 := b64CharVal_alphaChar (a / 4) (by omega)
    have n1 := alphaChar_ne_pad (a / 4) (by omega)
    have e2 := b64CharVal_alphaChar (a % 4 * 16 + b / 16) (by omega)
    have n2 := alphaChar_ne_pad (a % 4 * 16 + b / 16) (by omega)
    have e3 := b64CharVal_alphaChar (b % 16 * 4) (by omega)
    have n3 := alphaChar_ne_pad (b % 16 * 4) (by omega)
    simp only [b64e, a2b_base64, e1, e2, e3, eq_false n1, eq_false n2,
      eq_false n3, if_false]
    simp only [List.length_cons, List.length_nil, Except.map]
    norm_num
    omega
  | a :: b :: c :: rest, h => by
    have ha : a < 256 := h a (by simp)
    have hb : b < 256 := h b (by simp)
    have hc : c < 256 := h c (by simp)
    have e1 := b64CharVal_alphaChar (a / 4) (by omega)
    have n1 := alphaChar_ne_pad (a / 4) (by omega)
    have e2 := b64CharVal_alphaChar (a % 4 * 16 + b / 16) (by omega)
    have n2 := alphaChar_ne_pad (a % 4 * 16 + b / 16) (by omega)
    have e3 := b64CharVal_alphaChar (b % 16 * 4 + c / 64) (by omega)
    have n3 := alphaChar_ne_pad (b % 16 * 4 + c / 64) (by omega)
    have e4 := b64CharVal_alphaChar (c % 64) (by omega)
    have n4 := alphaChar_ne_pad (c % 64) (by omega)
    have ih := b64e_roundtrip rest (fun y hy => h y (by simp [hy]))
    rw [b64e, a2b_quad_step _ _ _ _ _ _ _ _ (b64e rest) e1 n1 e2 n2 e3 n3 e4 n4,
      ih]
    simp only [Except.map, Except.ok.injEq, List.cons.injEq]
    refine ⟨by omega, by omega, by omega, trivial⟩

theorem b64e_ascii : ∀ (x : List Nat), (∀ b ∈ x, b < 256) →
    ∀ c ∈ b64e x, c.toNat < 128
  | [], _ => by simp [b64e]
  | [a], h => by
    have ha : a < 256 := h a (by simp)
    have t1 := alphaChar_ascii (a / 4) (by omega)
    have t2 := alphaChar_ascii (a % 4 * 16) (by omega)
    intro c hc
    simp only [b64e, List.mem_cons, List.not_mem_nil, or_false] at hc
    rcases hc with rfl | rfl | rfl | rfl <;> first | assumption | decide
  | [a, b], h => by
    have ha : a < 256 := h a (by simp)
    have hb : b < 256 := h b (by simp)
    have t1 := alphaChar_ascii (a / 4) (by omega)
    have t2 := alphaChar_ascii (a % 4 * 16 + b / 16) (by omega)
    have t3 := alphaChar_ascii (b % 16 * 4) (by omega)
    intro c hc
    simp only [b64e, List.mem_cons, List.not_mem_nil, or_false] at hc
    rcases hc with rfl | rfl | rfl | rfl <;> first | assumption | decide
  | a :: b :: c :: rest, h => by
    have ha : a < 256 := h a (by simp)
    have hb : b < 256 := h b (by simp)
    have hcb : c < 256 := h c (by simp)
    have t1 := alphaChar_ascii (a / 4) (by omega)
    have t2 := alphaChar_ascii (a % 4 * 16 + b / 16) (by omega)
    have t3 := alphaChar_ascii (b % 16 * 4 + c / 64) (by omega)
    have t4 := alphaChar_ascii (c % 64) (by omega)
    have ih := b64e_ascii rest (fun y hy => h y (by simp [hy]))
    intro d hd
    simp only [b64e, List.mem_cons] at hd
    rcases hd with rfl | rfl | rfl | rfl | hd
    · exact t1
    · exact t2
    · exact t3
    · exact t4
    · exact ih d hd

/-- `base64.b64decode` recovers any payload from its unwrapped standard
encoding. -/
theorem b64decode_b64e (x : List Nat) (hx : ∀ b ∈ x, b < 256) :
    b64decode (b64e x) = .ok x := by
  unfold b64decode
  rw [if_pos]
  · exact b64e_roundtrip x hx
  · simp only [List.all_eq_true, decide_eq_true_eq]
    exact b64e_ascii x hx

/-- The shape of an encoding: alphabet data characters followed by the pad
run determined by the payload length. -/
theorem b64e_split : ∀ (x : List Nat), (∀ b ∈ x, b < 256) →
    ∃ t pad, b64e x = t ++ pad ∧ (∀ c ∈ t, isB64Alpha c = true) ∧
      ((pad = [] ∧ t.length % 4 = 0) ∨
       (pad = ['='] ∧ t.length % 4 = 3) ∨
       (pad = ['=', '='] ∧ t.length % 4 = 2))
  | [], _ => ⟨[], [], rfl, by simp, Or.inl ⟨rfl, by decide⟩⟩
  | [a], h => by
    have ha : a < 256 := h a (by simp)
    refine ⟨[b64AlphaChar (a / 4), b64AlphaChar (a % 4 * 16)], ['=', '='],
      rfl, ?_, Or.inr (Or.inr ⟨rfl, rfl⟩)⟩
    intro c hc
    simp only [List.mem_cons, List.not_mem_nil, or_false] at hc
    rcases hc with rfl | rfl
    · exact alphaChar_alpha (a / 4) (by omega)
    · exact alphaChar_alpha (a % 4 * 16) (by omega)
  | [a, b], h => by
    have ha : a < 256 := h a (by simp)
    have hb : b < 256 := h b (by simp)
    refine ⟨[b64AlphaChar (a / 4), b64AlphaChar (a % 4 * 16 + b / 16),
      b64AlphaChar (b % 16 * 4)], ['='], rfl, ?_, Or.inr (Or.inl ⟨rfl, rfl⟩)⟩
    intro c hc
    simp only [List.mem_cons, List.not_mem_nil, or_false] at hc
    rcases hc with rfl | rfl | rfl
    · exact alphaChar_alpha (a / 4) (by omega)
    · exact alphaChar_alpha (a % 4 * 16 + b / 16) (by omega)
    · exact alphaChar_alpha (b % 16 * 4) (by omega)
  | a :: b :: c :: rest, h => by
    have ha : a < 256 := h a (by simp)
    have hb : b < 256 := h b (by simp)
    have hcb : c < 256 := h c (by simp)
    obtain ⟨t', pad', heq, hall, hcase⟩ :=
      b64e_split rest (fun y hy => h y (by simp [hy]))
    refine ⟨b64AlphaChar (a / 4) :: b64AlphaChar (a % 4 * 16 + b / 16) ::
      b64AlphaChar (b % 16 * 4 + c / 64) :: b64AlphaChar (c % 64) :: t', pad',
      by simp [b64e, heq], ?_, ?_⟩
    · intro d hd
      simp only [List.mem_cons] at hd
      rcases hd with rfl | rfl | rfl | rfl | hd
      · exact alphaChar_alpha (a / 4) (by omega)
      · exact alphaChar_alpha (a % 4 * 16 + b / 16) (by omega)
      · exact alphaChar_alpha (b % 16 * 4 + c / 64) (by omega)
      · exact alphaChar_alpha (c % 64) (by omega)
      · exact hall d hd
    · rcases hcase with ⟨hp, hm⟩ | ⟨hp, hm⟩ | ⟨hp, hm⟩
      · exact Or.inl ⟨hp, by simp only [List.length_cons]; omega⟩
      · exact Or.inr (Or.inl ⟨hp, by simp only [List.length_cons]; omega⟩)
      · exact Or.inr (Or.inr ⟨hp, by simp only [List.length_cons]; omega⟩)

/-- C3: on any input the standard decode rejects, `_base64_decode` strips
every character outside `{A-Z, a-z, 0-9, +, /}` (this is `_recover_base64`),
drops the last character when the stripped length is 1 mod 4, and otherwise
pads with `'='` up to the next multiple of 4 and retries the standard
decode.  (The source appends `4 - len mod 4` pads, i.e. four of them when
the length is already a multiple of 4; that decodes identically to padding
up to the next multiple, which is what the right-hand side states.) -/
theorem base64_lenient_recovery_spec (s : List Char) (e : PyErr)
    (hfail : b64decode s = .error e) :
    _recover_base64 s = s.filter isB64Alpha ∧
    _base64_decode s =
      (if (s.filter isB64Alpha).length % 4 = 1 then
        b64decode (s.filter isB64Alpha).dropLast
      else
        b64decode (s.filter isB64Alpha ++
          List.replicate ((4 - (s.filter isB64Alpha).length % 4) % 4) '=')) := by
  refine ⟨rfl, ?_⟩
  unfold _base64_decode _recover_base64
  rw [hfail]
  by_cases h1 : (s.filter isB64Alpha).length % 4 = 1
  · rw [if_pos h1, if_pos h1]
  · rw [if_neg h1, if_neg h1]
    by_cases h0 : (s.filter isB64Alpha).length % 4 = 0
    · rw [h0]
      have hrep0 : List.replicate ((4 - 0) % 4) '=' = ([] : List Char) := rfl
      have hrep4 : List.replicate (4 - 0) '=' = ['=', '=', '=', '='] := rfl
      rw [hrep0, hrep4, List.append_nil]
      have hall : ∀ c ∈ s.filter isB64Alpha, isB64Alpha c = true :=
        fun c hc => List.of_mem_filter hc
      exact b64decode_pad4 (s.filter isB64Alpha) hall h0
    · have hm : (4 - (s.filter isB64Alpha).length % 4) % 4 =
          4 - (s.filter isB64Alpha).length % 4 := by omega
      rw [hm]

/-- Witness for C3 at the broken input `"QUJ"` (standard decode fails with
incorrect padding; the stripped length is 3 mod 4, so one pad is added). -/
theorem base64_lenient_recovery_spec_witness :
    _recover_base64 "QUJ".toList = "QUJ".toList.filter isB64Alpha ∧
    _base64_decode "QUJ".toList =
      (if ("QUJ".toList.filter isB64Alpha).length % 4 = 1 then
        b64decode ("QUJ".toList.filter isB64Alpha).dropLast
      else
        b64decode ("QUJ".toList.filter isB64Alpha ++
          List.replicate ((4 - ("QUJ".toList.filter isB64Alpha).length % 4) % 4)
            '=')) :=
  base64_lenient_recovery_spec "QUJ".toList PyErr.valueError (by rfl)

theorem wrap76_all (f : Char → Bool) (hnl : f '\x0a' = true) (cs : List Char)
    (h : cs.all f = true) : (wrap76 cs).all f = true := by
  rw [wrap76]
  split
  · rfl
  · rename_i hne
    have h1 : (cs.take 76).all f = true := by
      rw [List.all_eq_true] at h ⊢
      exact fun c hc => h c (List.mem_of_mem_take hc)
    have h2 : (cs.drop 76).all f = true := by
      rw [List.all_eq_true] at h ⊢
      exact fun c hc => h c (List.mem_of_mem_drop hc)
    have h3 := wrap76_all f hnl (cs.drop 76) h2
    simp [List.all_append, h1, h3, hnl]
termination_by cs.length
decreasing_by
  simp_wf
  cases cs with
  | nil => simp_all
  | cons c cs2 => simp

theorem wrap76_filter (p : Char → Bool) (hnl : p '\x0a' = false) (cs : List Char) :
    (wrap76 cs).filter p = cs.filter p := by
  rw [wrap76]
  split
  · rename_i he
    rw [he]
  · rename_i hne
    have ih := wrap76_filter p hnl (cs.drop 76)
    rw [List.filter_append, List.filter_cons_of_neg (by simp [hnl]), ih,
      ← List.filter_append, List.take_append_drop]
termination_by cs.length
decreasing_by
  simp_wf
  cases cs with
  | nil => simp_all
  | cons c cs2 => simp

/-- C4 (amended): decoding the line-wrapped standard encoding of any byte
payload yields the payload; and for a standard encoding with characters
outside the alphabet **and distinct from `'='`** injected anywhere, the
lenient decode recovers the payload whenever the stripped length is not 1
mod 4 (which it never is for a well-formed encoding). -/
theorem base64_roundtrip_and_injection (x : List Nat) (hx : ∀ b ∈ x, b < 256)
    (s : List Char)
    (hinj : s.filter (fun c => isB64Alpha c || decide (c = '=')) = b64e x)
    (hmod : (s.filter isB64Alpha).length % 4 ≠ 1) :
    _base64_decode (encode_base64_email x) = .ok x ∧
    _base64_decode s = .ok x := by
  obtain ⟨t, pad, heq, hall, hcase⟩ := b64e_split x hx
  have hb64filter : (b64e x).filter (fun c => isB64Alpha c || decide (c = '=')) =
      b64e x := by
    rw [List.filter_eq_self]
    intro c hc
    rw [heq] at hc
    rcases List.mem_append.mp hc with hct | hcp
    · simp [hall c hct]
    · have hcpad : c = '=' := by
        rcases hcase with ⟨hp, _⟩ | ⟨hp, _⟩ | ⟨hp, _⟩ <;> rw [hp] at hcp <;>
          simp only [List.mem_cons, List.not_mem_nil, or_false] at hcp <;>
          tauto
      simp [hcpad]
  constructor
  · have hwrapfilter := wrap76_filter
      (fun c => isB64Alpha c || decide (c = '=')) (by decide) (b64e x)
    have ha2b : a2b_base64 (wrap76 (b64e x)) [] 0 = .ok x := by
      calc a2b_base64 (wrap76 (b64e x)) [] 0
          = a2b_base64 ((wrap76 (b64e x)).filter
              (fun c => isB64Alpha c || decide (c = '='))) [] 0 :=
            (a2b_filter_keep _ [] 0).symm
        _ = a2b_base64 (b64e x) [] 0 := by rw [hwrapfilter, hb64filter]
        _ = .ok x := b64e_roundtrip x hx
    have hdecode : b64decode (wrap76 (b64e x)) = .ok x := by
      unfold b64decode
      rw [if_pos]
      · exact ha2b
      · exact wrap76_all (fun c => decide (c.toNat < 128)) (by decide) (b64e x)
          (by
            rw [List.all_eq_true]
            intro c hc
            simpa using b64e_ascii x hx c hc)
    unfold _base64_decode encode_base64_email
    rw [hdecode]
  · have hskip : a2b_base64 s [] 0 = .ok x := by
      calc a2b_base64 s [] 0
          = a2b_base64 (s.filter (fun c => isB64Alpha c || decide (c = '=')))
              [] 0 := (a2b_filter_keep s [] 0).symm
        _ = a2b_base64 (b64e x) [] 0 := by rw [hinj]
        _ = .ok x := b64e_roundtrip x hx
    have htb2 : s.filter isB64Alpha = t := by
      have hff : s.filter isB64Alpha =
          (s.filter (fun c => isB64Alpha c || decide (c = '='))).filter
            isB64Alpha := by
        rw [List.filter_filter]
        apply List.filter_congr
        intro a _
        cases ha : isB64Alpha a <;> simp [ha]
      rw [hff, hinj, heq, List.filter_append, List.filter_eq_self.mpr hall]
      have h2 : pad.filter isB64Alpha = [] := by
        rcases hcase with ⟨hp, _⟩ | ⟨hp, _⟩ | ⟨hp, _⟩ <;> rw [hp] <;> rfl
      rw [h2, List.append_nil]
    unfold _base64_decode
    cases hb : b64decode s with
    | ok r =>
      unfold b64decode at hb
      by_cases hascii : (s.all fun c => decide (c.toNat < 128)) = true
      · rw [if_pos hascii] at hb
        rw [hb] at hskip
        exact hskip
      · rw [if_neg hascii] at hb
        exact absurd hb (by simp)
    | error e2 =>
      unfold _recover_base64
      rw [htb2]
      rw [htb2] at hmod
      rcases hcase with ⟨hp, hm⟩ | ⟨hp, hm⟩ | ⟨hp, hm⟩
      · rw [if_neg (by omega), hm]
        have hrep : List.replicate (4 - 0) '=' = ['=', '=', '=', '='] := rfl
        rw [hrep]
        have hpad := b64decode_pad4 t hall hm
        rw [show List.replicate 4 '=' = (['=', '=', '=', '='] : List Char) from
          rfl] at hpad
        rw [hpad]
        have ht : t = b64e x := by rw [heq, hp, List.append_nil]
        rw [ht]
        exact b64decode_b64e x hx
      · rw [if_neg (by omega), hm]
        have hrep : List.replicate (4 - 3) '=' = ['='] := rfl
        rw [hrep]
        have ht : t ++ ['='] = b64e x := by rw [heq, hp]
        rw [ht]
        exact b64decode_b64e x hx
      · rw [if_neg (by omega), hm]
        have hrep : List.replicate (4 - 2) '=' = ['=', '='] := rfl
        rw [hrep]
        have ht : t ++ ['=', '='] = b64e x := by rw [heq, hp]
        rw [ht]
        exact b64decode_b64e x hx

/-- Witness for C4 at the payload `[65]`: its wrapped encoding decodes back,
and the encoding `"QQ=="` with a newline injected (`"QQ\n=="`) decodes back
too. -/
theorem base64_roundtrip_and_injection_witness :
    _base64_decode (encode_base64_email [65]) = .ok [65] ∧
    _base64_decode "QQ\x0a==".toList = .ok [65] :=
  base64_roundtrip_and_injection [65] (by decide) "QQ\x0a==".toList
    (by decide) (by decide)

/-- The claim as frozen is false: `"AAAAAAAA"` is the standard encoding of
six zero bytes; injecting the non-alphabet characters `'='`, `'='` after
position 2 gives `"AA==AAAAAA"`, whose stripped length is 8 (0 mod 4, hence
not 1 mod 4) — yet the lenient decode returns one zero byte, not six,
because the injected pad run terminates the standard decode early. -/
theorem base64_injection_counterexample :
    "AA==AAAAAA".toList.filter isB64Alpha = b64e [0, 0, 0, 0, 0, 0] ∧
    ("AA==AAAAAA".toList.filter isB64Alpha).length % 4 ≠ 1 ∧
    _base64_decode "AA==AAAAAA".toList = .ok [0] ∧
    _base64_decode "AA==AAAAAA".toList ≠ .ok [0, 0, 0, 0, 0, 0] := by
  have heval : _base64_decode "AA==AAAAAA".toList = .ok [0] := rfl
  refine ⟨by decide, by decide, heval, ?_⟩
  rw [heval]
  intro h
  exact absurd (Except.ok.inj h) (by decide)

/-! ## C5: dot-stuffing — scanner unfolding lemmas and line grammar -/

theorem ishex_bounds (b : Nat) (h : ishex b = true) :
    (48 ≤ b ∧ b ≤ 57) ∨ (97 ≤ b ∧ b ≤ 102) ∨ (65 ≤ b ∧ b ≤ 70) := by
  unfold ishex at h
  simp only [Bool.or_eq_true, Bool.and_eq_true, decide_eq_true_eq] at h
  tauto

theorem a2b_qp_nil : a2b_qp [] = [] := by
  simp [a2b_qp]

theorem a2b_qp_ord (c : Nat) (h : c ≠ 61) (r : List Nat) :
    a2b_qp (c :: r) = c :: a2b_qp r := by
  rw [a2b_qp.eq_def]
  dsimp only
  rw [if_neg h]

theorem a2b_qp_soft (r : List Nat) : a2b_qp (61 :: 10 :: r) = a2b_qp r := by
  rw [a2b_qp.eq_def]
  dsimp only
  simp

theorem a2b_qp_esc (h1 h2 : Nat) (hh1 : ishex h1 = true) (hh2 : ishex h2 = true)
    (r : List Nat) : a2b_qp (61 :: h1 :: h2 :: r) = unhex h1 h2 :: a2b_qp r := by
  have hb := ishex_bounds h1 hh1
  rw [a2b_qp.eq_def]
  dsimp only
  rw [if_pos rfl, if_neg (by omega), if_neg (by omega), if_neg (by omega)]
  simp [hh1, hh2]

/-- Token sequences of a well-formed quoted-printable line body: ordinary
bytes (neither `=` nor `\n`; a bare `\r` is permitted, the encoder emits
those) and complete hex escapes `=XY`. -/
inductive QpBody : List Nat → Prop where
  | nil : QpBody []
  | ord (c : Nat) (hc1 : c ≠ 61) (hc2 : c ≠ 10) (R : List Nat)
      (h : QpBody R) : QpBody (c :: R)
  | esc (h1 h2 : Nat) (hh1 : ishex h1 = true) (hh2 : ishex h2 = true)
      (R : List Nat) (h : QpBody R) : QpBody (61 :: h1 :: h2 :: R)

/-- A well-formed quoted-printable physical line (as produced by a standard
encoder and delivered by `readline`): body tokens ended by nothing, a final
newline, a soft break `=\n`, or a bare trailing `=`. -/
inductive QpRem : List Nat → Prop where
  | nil : QpRem []
  | hard : QpRem [10]
  | soft : QpRem [61, 10]
  | softEnd : QpRem [61]
  | ord (c : Nat) (hc1 : c ≠ 61) (hc2 : c ≠ 10) (R : List Nat)
      (h : QpRem R) : QpRem (c :: R)
  | esc (h1 h2 : Nat) (hh1 : ishex h1 = true) (hh2 : ishex h2 = true)
      (R : List Nat) (h : QpRem R) : QpRem (61 :: h1 :: h2 :: R)

theorem qpbody_append_qprem (B : List Nat) (hB : QpBody B) (S : List Nat)
    (hS : QpRem S) : QpRem (B ++ S) := by
  induction hB with
  | nil => exact hS
  | ord c hc1 hc2 R _ ih => exact QpRem.ord c hc1 hc2 _ ih
  | esc h1 h2 hh1 hh2 R _ ih => exact QpRem.esc h1 h2 hh1 hh2 _ ih

/-- The scanner is compositional after a body: a body's tokens decode to a
fixed prefix no matter what follows. -/
theorem a2b_qp_body_append (B : List Nat) (hB : QpBody B) :
    ∀ X, a2b_qp (B ++ X) = a2b_qp B ++ a2b_qp X := by
  induction hB with
  | nil => intro X; simp [a2b_qp_nil]
  | ord c hc1 hc2 R _ ih =>
    intro X
    rw [List.cons_append, a2b_qp_ord c hc1, a2b_qp_ord c hc1, ih X,
      List.cons_append]
  | esc h1 h2 hh1 hh2 R _ ih =>
    intro X
    rw [List.cons_append, List.cons_append, List.cons_append,
      a2b_qp_esc h1 h2 hh1 hh2, a2b_qp_esc h1 h2 hh1 hh2, ih X,
      List.cons_append]

/-- The scanner is compositional after a complete line ending in `\n`. -/
theorem a2b_qp_line_append (X : List Nat) (hX : QpRem X)
    (hnl : X.getLast? = some 10) :
    ∀ Y, a2b_qp (X ++ Y) = a2b_qp X ++ a2b_qp Y := by
  induction hX with
  | nil => simp at hnl
  | hard =>
    intro Y
    rw [List.cons_append, List.nil_append, a2b_qp_ord 10 (by omega),
      a2b_qp_ord 10 (by omega), a2b_qp_nil]
    rfl
  | soft =>
    intro Y
    rw [List.cons_append, List.cons_append, List.nil_append, a2b_qp_soft,
      a2b_qp_soft, a2b_qp_nil]
    rfl
  | softEnd => simp at hnl
  | ord c hc1 hc2 R hR ih =>
    intro Y
    have hRne : R ≠ [] := by
      intro hR0
      rw [hR0] at hnl
      simp at hnl
      omega
    have hnl2 : R.getLast? = some 10 := by
      cases R with
      | nil => exact absurd rfl hRne
      | cons r R2 => rwa [List.getLast?_cons_cons] at hnl
    rw [List.cons_append, a2b_qp_ord c hc1, a2b_qp_ord c hc1, ih hnl2 Y,
      List.cons_append]
  | esc h1 h2 hh1 hh2 R hR ih =>
    intro Y
    have hRne : R ≠ [] := by
      intro hR0
      rw [hR0] at hnl
      simp at hnl
      have := ishex_bounds h2 hh2
      omega
    have hnl2 : R.getLast? = some 10 := by
      cases R with
      | nil => exact absurd rfl hRne
      | cons r R2 =>
        rwa [List.getLast?_cons_cons, List.getLast?_cons_cons,
          List.getLast?_cons_cons] at hnl
    rw [List.cons_append, List.cons_append, List.cons_append,
      a2b_qp_esc h1 h2 hh1 hh2, a2b_qp_esc h1 h2 hh1 hh2, ih hnl2 Y,
      List.cons_append]

theorem qpbody_no_nl (B : List Nat) (hB : QpBody B) : ∀ b ∈ B, b ≠ 10 := by
  induction hB with
  | nil => simp
  | ord c hc1 hc2 R _ ih =>
    intro b hb
    rcases List.mem_cons.mp hb with rfl | hb2
    · exact hc2
    · exact ih b hb2
  | esc h1 h2 hh1 hh2 R _ ih =>
    intro b hb
    have b1 := ishex_bounds h1 hh1
    have b2 := ishex_bounds h2 hh2
    rcases List.mem_cons.mp hb with rfl | hb
    · omega
    rcases List.mem_cons.mp hb with rfl | hb
    · omega
    rcases List.mem_cons.mp hb with rfl | hb
    · omega
    · exact ih b hb

/-- Every well-formed line splits into a newline-free body and one of the
four terminators. -/
theorem qprem_split (X : List Nat) (hX : QpRem X) :
    ∃ B tail, X = B ++ tail ∧ QpBody B ∧
      (tail = [] ∨ tail = [10] ∨ tail = [61, 10] ∨ tail = [61]) := by
  induction hX with
  | nil => exact ⟨[], [], rfl, QpBody.nil, Or.inl rfl⟩
  | hard => exact ⟨[], [10], rfl, QpBody.nil, Or.inr (Or.inl rfl)⟩
  | soft => exact ⟨[], [61, 10], rfl, QpBody.nil, Or.inr (Or.inr (Or.inl rfl))⟩
  | softEnd => exact ⟨[], [61], rfl, QpBody.nil, Or.inr (Or.inr (Or.inr rfl))⟩
  | ord c hc1 hc2 R _ ih =>
    obtain ⟨B, tail, heq, hB, htail⟩ := ih
    exact ⟨c :: B, tail, by rw [heq]; rfl, QpBody.ord c hc1 hc2 B hB, htail⟩
  | esc h1 h2 hh1 hh2 R _ ih =>
    obtain ⟨B, tail, heq, hB, htail⟩ := ih
    exact ⟨61 :: h1 :: h2 :: B, tail, by rw [heq]; rfl,
      QpBody.esc h1 h2 hh1 hh2 B hB, htail⟩

theorem readlinesAux_nl (acc bs : List Nat) :
    readlinesAux acc (10 :: bs) = (acc.reverse ++ [10]) :: readlinesAux [] bs :=
  rfl

theorem readlinesAux_nil_arg (acc : List Nat) :
    readlinesAux acc [] = if acc = [] then [] else [acc.reverse] := by
  rw [readlinesAux.eq_def]

theorem readlinesAux_other (acc : List Nat) (b : Nat) (h : b ≠ 10)
    (bs : List Nat) : readlinesAux acc (b :: bs) = readlinesAux (b :: acc) bs := by
  rw [readlinesAux.eq_def]
  dsimp only
  rw [if_neg h]

/-- Newline-free bytes only accumulate. -/
theorem readlinesAux_skip (B : List Nat) (hB : ∀ b ∈ B, b ≠ 10) :
    ∀ acc rest, readlinesAux acc (B ++ rest) =
      readlinesAux (B.reverse ++ acc) rest := by
  induction B with
  | nil => intro acc rest; simp
  | cons b B ih =>
    intro acc rest
    rw [List.cons_append, readlinesAux_other acc b (hB b (by simp)),
      ih (fun x hx => hB x (by simp [hx])) (b :: acc) rest]
    congr 1
    simp

/-- `readline` distributes over concatenation at a final newline. -/
theorem readlinesAux_append_nl : ∀ (X acc Y : List Nat),
    X.getLast? = some 10 →
    readlinesAux acc (X ++ Y) = readlinesAux acc X ++ readlinesAux [] Y := by
  intro X
  induction X with
  | nil => intro acc Y h; simp at h
  | cons b X ih =>
    intro acc Y h
    by_cases hb : b = 10
    · subst hb
      cases X with
      | nil =>
        rw [List.cons_append, List.nil_append, readlinesAux_nl,
          readlinesAux_nl]
        simp [readlinesAux]
      | cons x X2 =>
        rw [List.getLast?_cons_cons] at h
        rw [List.cons_append, readlinesAux_nl, readlinesAux_nl,
          ih [] Y h]
        simp
    · cases X with
      | nil =>
        simp only [List.getLast?_singleton] at h
        exact absurd (Option.some.inj h) hb
      | cons x X2 =>
        rw [List.getLast?_cons_cons] at h
        rw [List.cons_append, readlinesAux_other acc b hb,
          readlinesAux_other acc b hb, ih (b :: acc) Y h]

theorem flatten_readlinesAux : ∀ (s acc : List Nat),
    (readlinesAux acc s).flatten = acc.reverse ++ s := by
  intro s
  induction s with
  | nil =>
    intro acc
    rw [readlinesAux_nil_arg]
    split <;> simp_all
  | cons b bs ih =>
    intro acc
    by_cases hb : b = 10
    · subst hb
      rw [readlinesAux_nl]
      simp [ih []]
    · rw [readlinesAux_other acc b hb, ih (b :: acc)]
      simp

theorem flatten_readlines (s : List Nat) : (readlinesKeepEnds s).flatten = s := by
  unfold readlinesKeepEnds
  rw [flatten_readlinesAux s []]
  rfl

theorem mem_readlinesAux_ne_nil : ∀ (s acc L : List Nat),
    L ∈ readlinesAux acc s → L ≠ [] := by
  intro s
  induction s with
  | nil =>
    intro acc L hL
    rw [readlinesAux_nil_arg] at hL
    split at hL
    · simp at hL
    · rename_i hacc
      simp only [List.mem_singleton] at hL
      subst hL
      simpa using hacc
  | cons b bs ih =>
    intro acc L hL
    by_cases hb : b = 10
    · subst hb
      rw [readlinesAux_nl] at hL
      rcases List.mem_cons.mp hL with rfl | hL2
      · simp
      · exact ih [] L hL2
    · rw [readlinesAux_other acc b hb] at hL
      exact ih (b :: acc) L hL

/-- The shape readlines guarantees: every line but the last ends in `\n`. -/
inductive LinesChain : List (List Nat) → Prop where
  | nil : LinesChain []
  | single (L : List Nat) : LinesChain [L]
  | cons (L M : List Nat) (rest : List (List Nat))
      (h : L.getLast? = some 10) (hr : LinesChain (M :: rest)) :
      LinesChain (L :: M :: rest)

theorem linesChain_cons_of (L : List Nat) (ls : List (List Nat))
    (h : L.getLast? = some 10) (hr : LinesChain ls) : LinesChain (L :: ls) := by
  cases ls with
  | nil => exact LinesChain.single L
  | cons M rest => exact LinesChain.cons L M rest h hr

theorem linesChain_readlinesAux : ∀ (s acc : List Nat),
    LinesChain (readlinesAux acc s) := by
  intro s
  induction s with
  | nil =>
    intro acc
    rw [readlinesAux_nil_arg]
    split
    · exact LinesChain.nil
    · exact LinesChain.single _
  | cons b bs ih =>
    intro acc
    by_cases hb : b = 10
    · subst hb
      rw [readlinesAux_nl]
      exact linesChain_cons_of _ _ (by simp) (ih [])
    · rw [readlinesAux_other acc b hb]
      exact ih (b :: acc)

/-- A single well-formed line is one physical line. -/
theorem qprem_readlines_single (L : List Nat) (hL : QpRem L) (hne : L ≠ []) :
    readlinesKeepEnds L = [L] := by
  obtain ⟨B, tail, heq, hB, htail⟩ := qprem_split L hL
  have hBnl := qpbody_no_nl B hB
  unfold readlinesKeepEnds
  rcases htail with rfl | rfl | rfl | rfl
  · rw [heq, List.append_nil] at hne ⊢
    have h2 := readlinesAux_skip B hBnl [] []
    simp only [List.append_nil] at h2
    rw [h2, readlinesAux_nil_arg, if_neg (by simp [hne])]
    simp
  · rw [heq, readlinesAux_skip B hBnl [] [10], readlinesAux_nl]
    simp [readlinesAux]
  · rw [heq]
    have h61 : ∀ b ∈ B ++ [61], b ≠ 10 := by
      intro b hb
      rcases List.mem_append.mp hb with hb1 | hb2
      · exact hBnl b hb1
      · simp only [List.mem_singleton] at hb2
        omega
    have hassoc : B ++ [61, 10] = (B ++ [61]) ++ [10] := by simp
    rw [hassoc, readlinesAux_skip (B ++ [61]) h61 [] [10], readlinesAux_nl]
    simp [readlinesAux]
  · rw [heq]
    have h61 : ∀ b ∈ B ++ [61], b ≠ 10 := by
      intro b hb
      rcases List.mem_append.mp hb with hb1 | hb2
      · exact hBnl b hb1
      · simp only [List.mem_singleton] at hb2
        omega
    have h2 := readlinesAux_skip (B ++ [61]) h61 [] []
    simp only [List.append_nil] at h2
    rw [h2, readlinesAux_nil_arg, if_neg (by simp)]
    simp

theorem cutScan_inq3 (total : Nat) (R : List Nat) (p : Nat) :
    cutScan total R p 3 = cutScan total R p 0 := by
  cases R with
  | nil => rfl
  | cons c rest =>
    rw [cutScan.eq_def]
    conv_rhs => rw [cutScan.eq_def]
    norm_num

/-- A complete escape whose opening `=` is at or before the midpoint is
skipped atomically by the cut scan. -/
theorem cutScan_esc_step (total : Nat) (h1 h2 : Nat) (hh1 : ishex h1 = true)
    (R : List Nat) (p : Nat) (hp : ¬2 * p > total) :
    cutScan total (61 :: h1 :: h2 :: R) p 0 = cutScan total R (p + 3) 0 := by
  rw [cutScan.eq_def]
  dsimp only
  rw [if_neg (by omega), if_neg hp, if_pos rfl, if_pos hh1]
  rw [cutScan.eq_def]
  dsimp only
  rw [if_pos (by omega), if_pos (by omega)]
  rw [cutScan.eq_def]
  dsimp only
  rw [if_pos (by omega), if_pos (by omega)]
  have : p + 1 + 1 + 1 = p + 3 := by omega
  rw [this, cutScan_inq3]

/-- The cut scan of a well-formed remainder stops at a token boundary: the
line splits into a body prefix `P` (the kept half) and a nonempty
well-formed remainder `S` (the continuation half), with the scan returning
the boundary position.  An empty `P` arises only from an immediate break or
a one-byte remainder. -/
theorem cutScan_boundary (total : Nat) (htot : 78 ≤ total) (R : List Nat)
    (hR : QpRem R) :
    ∀ pos0, pos0 + R.length = total →
      R = [] ∨ ∃ P S, R = P ++ S ∧ QpBody P ∧ QpRem S ∧ S ≠ [] ∧
        cutScan total R pos0 0 = pos0 + P.length ∧
        (P = [] → 2 * pos0 > total ∨ R.length = 1) := by
  induction hR with
  | nil => exact fun pos0 _ => Or.inl rfl
  | hard =>
    intro pos0 hlen
    refine Or.inr ⟨[], [10], rfl, QpBody.nil, QpRem.hard, by simp, ?_,
      fun _ => Or.inr rfl⟩
    rw [cutScan.eq_def]
    dsimp only
    by_cases hp : 2 * pos0 > total
    · rw [if_neg (by omega), if_pos hp]
      simp
    · rw [if_neg (by omega), if_neg hp, if_neg (by omega)]
      show cutScan total [] (pos0 + 1) 0 = pos0 + List.length []
      rw [cutScan.eq_def]
      simp
  | soft =>
    intro pos0 hlen
    simp only [List.length_cons, List.length_nil] at hlen
    have hp : 2 * pos0 > total := by omega
    refine Or.inr ⟨[], [61, 10], rfl, QpBody.nil, QpRem.soft, by simp, ?_,
      fun _ => Or.inl hp⟩
    rw [cutScan.eq_def]
    dsimp only
    rw [if_neg (by omega), if_pos hp]
    simp
  | softEnd =>
    intro pos0 hlen
    simp only [List.length_cons, List.length_nil] at hlen
    have hp : 2 * pos0 > total := by omega
    refine Or.inr ⟨[], [61], rfl, QpBody.nil, QpRem.softEnd, by simp, ?_,
      fun _ => Or.inl hp⟩
    rw [cutScan.eq_def]
    dsimp only
    rw [if_neg (by omega), if_pos hp]
    simp
  | ord c hc1 hc2 R hRsub ih =>
    intro pos0 hlen
    simp only [List.length_cons] at hlen
    by_cases hp : 2 * pos0 > total
    · refine Or.inr ⟨[], c :: R, rfl, QpBody.nil,
        QpRem.ord c hc1 hc2 R hRsub, by simp, ?_, fun _ => Or.inl hp⟩
      rw [cutScan.eq_def]
      dsimp only
      rw [if_neg (by omega), if_pos hp]
      simp
    · have hstep : cutScan total (c :: R) pos0 0 =
          cutScan total R (pos0 + 1) 0 := by
        rw [cutScan.eq_def]
        dsimp only
        rw [if_neg (by omega), if_neg hp, if_neg hc1]
      rcases ih (pos0 + 1) (by omega) with hR0 | ⟨P, S, heq, hP, hS, hSne, hcs, _⟩
      · subst hR0
        refine Or.inr ⟨[], [c], rfl, QpBody.nil,
          QpRem.ord c hc1 hc2 [] QpRem.nil, by simp, ?_, fun _ => Or.inr rfl⟩
        rw [hstep, cutScan.eq_def]
        simp
      · refine Or.inr ⟨c :: P, S, by rw [heq]; simp, QpBody.ord c hc1 hc2 P hP,
          hS, hSne, ?_, by simp⟩
        rw [hstep, hcs]
        simp only [List.length_cons]
        omega
  | esc h1 h2 hh1 hh2 R hRsub ih =>
    intro pos0 hlen
    simp only [List.length_cons] at hlen
    by_cases hp : 2 * pos0 > total
    · refine Or.inr ⟨[], 61 :: h1 :: h2 :: R, rfl, QpBody.nil,
        QpRem.esc h1 h2 hh1 hh2 R hRsub, by simp, ?_, fun _ => Or.inl hp⟩
      rw [cutScan.eq_def]
      dsimp only
      rw [if_neg (by omega), if_pos hp]
      simp
    · have hstep := cutScan_esc_step total h1 h2 hh1 R pos0 hp
      rcases ih (pos0 + 3) (by omega) with hR0 | ⟨P, S, heq, hP, hS, hSne, hcs, _⟩
      · exfalso
        subst hR0
        simp only [List.length_nil] at hlen
        omega
      · refine Or.inr ⟨61 :: h1 :: h2 :: P, S, by rw [heq]; simp,
          QpBody.esc h1 h2 hh1 hh2 P hP, hS, hSne, ?_, by simp⟩
        rw [hstep, hcs]
        simp only [List.length_cons]
        omega

/-- Dropping the leading byte of a well-formed line keeps it well-formed,
provided that byte is not an escape opener. -/
theorem qprem_cons_inv (X : List Nat) (hX : QpRem X) :
    ∀ c r, X = c :: r → c ≠ 61 → QpRem r := by
  cases hX with
  | nil => intro c r h _; simp at h
  | hard =>
    intro c r h _
    obtain ⟨h1, h2⟩ := List.cons.inj h
    rw [← h2]
    exact QpRem.nil
  | soft =>
    intro c r h hc
    obtain ⟨h1, _⟩ := List.cons.inj h
    exact absurd h1.symm hc
  | softEnd =>
    intro c r h hc
    obtain ⟨h1, _⟩ := List.cons.inj h
    exact absurd h1.symm hc
  | ord c' hc1 hc2 R h =>
    intro c r heq _
    obtain ⟨_, h2⟩ := List.cons.inj heq
    rw [← h2]
    exact h
  | esc h1 h2 hh1 hh2 R h =>
    intro c r heq hc
    obtain ⟨he1, _⟩ := List.cons.inj heq
    exact absurd he1.symm hc

theorem qpbody_append (A : List Nat) (hA : QpBody A) (B : List Nat)
    (hB : QpBody B) : QpBody (A ++ B) := by
  induction hA with
  | nil => exact hB
  | ord c hc1 hc2 R _ ih => exact QpBody.ord c hc1 hc2 _ ih
  | esc h1 h2 hh1 hh2 R _ ih => exact QpBody.esc h1 h2 hh1 hh2 _ ih

/-- A body ending in a space or tab splits off that final byte as an
ordinary token (spaces and tabs are never part of a hex escape). -/
theorem qpbody_last_space (P : List Nat) (hP : QpBody P) :
    ∀ w, P.getLast? = some w → (w = 32 ∨ w = 9) →
      ∃ P0, P = P0 ++ [w] ∧ QpBody P0 := by
  induction hP with
  | nil => intro w hw _; simp at hw
  | ord c hc1 hc2 R hR ih =>
    intro w hw hsp
    cases R with
    | nil =>
      rw [List.getLast?_singleton] at hw
      obtain rfl := Option.some.inj hw
      exact ⟨[], rfl, QpBody.nil⟩
    | cons r R2 =>
      rw [List.getLast?_cons_cons] at hw
      obtain ⟨R0, hR0eq, hR0⟩ := ih w hw hsp
      exact ⟨c :: R0, by rw [hR0eq]; rfl, QpBody.ord c hc1 hc2 R0 hR0⟩
  | esc h1 h2 hh1 hh2 R hR ih =>
    intro w hw hsp
    cases R with
    | nil =>
      rw [List.getLast?_cons_cons, List.getLast?_cons_cons,
        List.getLast?_singleton] at hw
      obtain rfl := Option.some.inj hw
      rcases hsp with rfl | rfl
      · exact absurd hh2 (by decide)
      · exact absurd hh2 (by decide)
    | cons r R2 =>
      rw [List.getLast?_cons_cons, List.getLast?_cons_cons,
        List.getLast?_cons_cons] at hw
      obtain ⟨R0, hR0eq, hR0⟩ := ih w hw hsp
      exact ⟨61 :: h1 :: h2 :: R0, by rw [hR0eq]; rfl,
        QpBody.esc h1 h2 hh1 hh2 R0 hR0⟩

theorem getLast_append_ne (A B : List Nat) (hB : B ≠ []) :
    (A ++ B).getLast? = B.getLast? := by
  induction A with
  | nil => rfl
  | cons a A ih =>
    cases hAB : A ++ B with
    | nil => exact absurd (List.append_eq_nil.mp hAB).2 hB
    | cons x xs =>
      rw [List.cons_append, hAB, List.getLast?_cons_cons, ← hAB, ih]

/-- The trailing-whitespace escape of `_quote_and_cut` keeps the kept half a
well-formed body, does not change its decoding, and preserves a leading
escape opener. -/
theorem qpSpaceAdjust_spec (P : List Nat) (hP : QpBody P) :
    QpBody (qpSpaceAdjust P) ∧ a2b_qp (qpSpaceAdjust P) = a2b_qp P ∧
    (P.head? = some 61 → (qpSpaceAdjust P).head? = some 61) := by
  cases hw : P.getLast? with
  | none =>
    have h0 : qpSpaceAdjust P = P := by simp [qpSpaceAdjust, hw]
    rw [h0]
    exact ⟨hP, rfl, fun h => h⟩
  | some w =>
    by_cases hsp : w = 32 ∨ w = 9
    · obtain ⟨P0, hP0eq, hP0⟩ := qpbody_last_space P hP w hw hsp
      have hdl : P.dropLast = P0 := by rw [hP0eq]; simp
      have heq : qpSpaceAdjust P = P0 ++ qpQuote w := by
        simp [qpSpaceAdjust, hw, hsp, hdl]
      have hqb : QpBody (qpQuote w) := by
        rcases hsp with rfl | rfl
        · rw [show qpQuote 32 = [61, 50, 48] from by decide]
          exact QpBody.esc 50 48 (by decide) (by decide) [] QpBody.nil
        · rw [show qpQuote 9 = [61, 48, 57] from by decide]
          exact QpBody.esc 48 57 (by decide) (by decide) [] QpBody.nil
      have hqdec : a2b_qp (qpQuote w) = [w] := by
        rcases hsp with rfl | rfl
        · rw [show qpQuote 32 = [61, 50, 48] from by decide,
            a2b_qp_esc 50 48 (by decide) (by decide), a2b_qp_nil,
            show unhex 50 48 = 32 from by decide]
        · rw [show qpQuote 9 = [61, 48, 57] from by decide,
            a2b_qp_esc 48 57 (by decide) (by decide), a2b_qp_nil,
            show unhex 48 57 = 9 from by decide]
      refine ⟨?_, ?_, ?_⟩
      · rw [heq]
        exact qpbody_append P0 hP0 _ hqb
      · rw [heq, a2b_qp_body_append P0 hP0, hqdec, hP0eq,
          a2b_qp_body_append P0 hP0]
        congr 1
        rw [a2b_qp_ord w (by rcases hsp with rfl | rfl <;> omega), a2b_qp_nil]
      · intro hh
        have hP0ne : P0 ≠ [] := by
          intro h0
          rw [hP0eq, h0, List.nil_append, List.head?_cons] at hh
          have := Option.some.inj hh
          rcases hsp with rfl | rfl <;> omega
        rw [heq]
        cases P0 with
        | nil => exact absurd rfl hP0ne
        | cons p0 Q =>
          rw [hP0eq, List.cons_append, List.head?_cons] at hh
          rw [List.cons_append, List.head?_cons]
          exact hh
    · have h0 : qpSpaceAdjust P = P := by simp [qpSpaceAdjust, hw, hsp]
      rw [h0]
      exact ⟨hP, rfl, fun h => h⟩

/-- The leading-dot escape of `_quote_and_cut` keeps the continuation half
well-formed, does not change its decoding (in any right context), removes
any leading dot, and preserves nonemptiness and a final newline. -/
theorem qpDotAdjust_spec (S : List Nat) (hS : QpRem S) :
    QpRem (qpDotAdjust S) ∧
    (∀ Y, a2b_qp (qpDotAdjust S ++ Y) = a2b_qp (S ++ Y)) ∧
    (qpDotAdjust S).head? ≠ some 46 ∧
    (S ≠ [] → qpDotAdjust S ≠ []) ∧
    (S.getLast? = some 10 → (qpDotAdjust S).getLast? = some 10) := by
  cases S with
  | nil =>
    have h0 : qpDotAdjust [] = [] := rfl
    rw [h0]
    exact ⟨QpRem.nil, fun Y => rfl, by simp, fun h => absurd rfl h, fun h => h⟩
  | cons x r =>
    by_cases hx : x = 46
    · subst hx
      have hr : QpRem r := qprem_cons_inv (46 :: r) hS 46 r rfl (by omega)
      have heq : qpDotAdjust (46 :: r) = 61 :: 50 :: 69 :: r := by
        simp [qpDotAdjust, show qpQuote 46 = [61, 50, 69] from by decide]
      refine ⟨?_, ?_, ?_, ?_, ?_⟩
      · rw [heq]
        exact QpRem.esc 50 69 (by decide) (by decide) r hr
      · intro Y
        rw [heq]
        simp only [List.cons_append]
        rw [a2b_qp_esc 50 69 (by decide) (by decide),
          a2b_qp_ord 46 (by omega), show unhex 50 69 = 46 from by decide]
      · rw [heq]
        intro hcon
        rw [List.head?_cons] at hcon
        have := Option.some.inj hcon
        omega
      · intro _
        rw [heq]
        exact List.cons_ne_nil _ _
      · intro hlast
        rw [heq]
        cases r with
        | nil =>
          rw [List.getLast?_singleton] at hlast
          have := Option.some.inj hlast
          omega
        | cons a as =>
          rw [List.getLast?_cons_cons] at hlast
          rw [List.getLast?_cons_cons, List.getLast?_cons_cons,
            List.getLast?_cons_cons]
          exact hlast
    · have heq : qpDotAdjust (x :: r) = x :: r := by simp [qpDotAdjust, hx]
      refine ⟨by rw [heq]; exact hS, fun Y => by rw [heq], ?_,
        fun _ => by rw [heq]; exact List.cons_ne_nil x r,
        fun h => by rw [heq]; exact h⟩
      rw [heq]
      intro hcon
      rw [List.head?_cons] at hcon
      exact hx (Option.some.inj hcon)

theorem take_append_len (A B : List Nat) : (A ++ B).take A.length = A := by
  induction A with
  | nil => rfl
  | cons a A ih => simp [ih]

theorem drop_append_len (A B : List Nat) : (A ++ B).drop A.length = B := by
  induction A with
  | nil => rfl
  | cons a A ih => simpa using ih

/-- Master lemma for `_quote_and_cut` on a well-formed dot-led line: the
output decodes to the same bytes, a final newline is preserved together
with decode-compositionality, and no physical line of the output starts
with a dot. -/
theorem quote_and_cut_spec (L0 : List Nat) (hrem : QpRem L0) :
    a2b_qp (_quote_and_cut (46 :: L0)) = a2b_qp (46 :: L0) ∧
    ((46 :: L0).getLast? = some 10 →
      (_quote_and_cut (46 :: L0)).getLast? = some 10 ∧
      ∀ Y, a2b_qp (_quote_and_cut (46 :: L0) ++ Y) =
        a2b_qp (_quote_and_cut (46 :: L0)) ++ a2b_qp Y) ∧
    (∀ M ∈ readlinesKeepEnds (_quote_and_cut (46 :: L0)),
      M.head? ≠ some 46) := by
  have hq : qpQuote 46 = [61, 50, 69] := by decide
  have hlnrem : QpRem (61 :: 50 :: 69 :: L0) :=
    QpRem.esc 50 69 (by decide) (by decide) L0 hrem
  have hdecln : a2b_qp (61 :: 50 :: 69 :: L0) = a2b_qp (46 :: L0) := by
    rw [a2b_qp_esc 50 69 (by decide) (by decide), a2b_qp_ord 46 (by omega),
      show unhex 50 69 = 46 from by decide]
  have hlast10 : (46 :: L0).getLast? = some 10 → L0.getLast? = some 10 := by
    intro h
    cases L0 with
    | nil =>
      rw [List.getLast?_singleton] at h
      have := Option.some.inj h
      omega
    | cons a as => rwa [List.getLast?_cons_cons] at h
  by_cases hlen : (61 :: 50 :: 69 :: L0).length ≤ 77
  · have heqT : _quote_and_cut (46 :: L0) = 61 :: 50 :: 69 :: L0 := by
      simp only [_quote_and_cut, hq, List.cons_append, List.nil_append]
      rw [if_pos hlen]
    refine ⟨by rw [heqT]; exact hdecln, ?_, ?_⟩
    · intro h10
      have hl0 := hlast10 h10
      have hl0ne : L0 ≠ [] := by
        intro h0
        rw [h0] at hl0
        simp at hl0
      have hlnlast : (61 :: 50 :: 69 :: L0).getLast? = some 10 := by
        rw [show (61 :: 50 :: 69 :: L0) = [61, 50, 69] ++ L0 from rfl,
          getLast_append_ne _ _ hl0ne]
        exact hl0
      exact ⟨by rw [heqT]; exact hlnlast,
        fun Y => by rw [heqT]; exact a2b_qp_line_append _ hlnrem hlnlast Y⟩
    · intro M hM
      rw [heqT, qprem_readlines_single _ hlnrem (List.cons_ne_nil _ _)] at hM
      rw [List.mem_singleton] at hM
      subst hM
      intro hcon
      rw [List.head?_cons] at hcon
      have := Option.some.inj hcon
      omega
  · have htot : 78 ≤ (61 :: 50 :: 69 :: L0).length := by omega
    rcases cutScan_boundary _ htot _ hlnrem 0 (by simp) with hnil |
      ⟨P, S, heqPS, hP, hS, hSne, hcs, hPnil⟩
    · exact absurd hnil (by simp)
    · rw [Nat.zero_add] at hcs
      have hPne : P ≠ [] := by
        intro h0
        rcases hPnil h0 with h2 | h2 <;> omega
      have hPhead : P.head? = some 61 := by
        cases P with
        | nil => exact absurd rfl hPne
        | cons p P2 =>
          rw [List.cons_append] at heqPS
          obtain ⟨h1, _⟩ := List.cons.inj heqPS
          rw [List.head?_cons, ← h1]
      have htake : (61 :: 50 :: 69 :: L0).take P.length = P := by
        rw [heqPS]
        exact take_append_len P S
      have hdrop : (61 :: 50 :: 69 :: L0).drop P.length = S := by
        rw [heqPS]
        exact drop_append_len P S
      have heqT : _quote_and_cut (46 :: L0) =
          qpSpaceAdjust P ++ [61, 10] ++ qpDotAdjust S := by
        simp only [_quote_and_cut, hq, List.cons_append, List.nil_append]
        rw [if_neg hlen, hcs, htake, hdrop]
      obtain ⟨hAbody, hAdec, hAhead⟩ := qpSpaceAdjust_spec P hP
      obtain ⟨hBrem, hBdec, hBhead, hBne, hBlast⟩ := qpDotAdjust_spec S hS
      have hBne2 : qpDotAdjust S ≠ [] := hBne hSne
      have hAheadv : (qpSpaceAdjust P).head? = some 61 := hAhead hPhead
      have hAne : qpSpaceAdjust P ≠ [] := by
        intro h0
        rw [h0] at hAheadv
        simp at hAheadv
      have hkey : ∀ X, a2b_qp (qpSpaceAdjust P ++ [61, 10] ++ X) =
          a2b_qp (qpSpaceAdjust P) ++ a2b_qp X := by
        intro X
        rw [List.append_assoc, a2b_qp_body_append _ hAbody]
        congr 1
        show a2b_qp (61 :: 10 :: X) = a2b_qp X
        exact a2b_qp_soft X
      have hTdec : a2b_qp (_quote_and_cut (46 :: L0)) =
          a2b_qp (46 :: L0) := by
        rw [heqT, hkey]
        have h1 := hBdec []
        simp only [List.append_nil] at h1
        rw [h1, hAdec, ← a2b_qp_body_append P hP S, ← heqPS, hdecln]
      refine ⟨hTdec, ?_, ?_⟩
      · intro h10
        have hl0 := hlast10 h10
        have hl0ne : L0 ≠ [] := by
          intro h0
          rw [h0] at hl0
          simp at hl0
        have hlnlast : (61 :: 50 :: 69 :: L0).getLast? = some 10 := by
          rw [show (61 :: 50 :: 69 :: L0) = [61, 50, 69] ++ L0 from rfl,
            getLast_append_ne _ _ hl0ne]
          exact hl0
        have hSlast : S.getLast? = some 10 := by
          rw [heqPS, getLast_append_ne _ _ hSne] at hlnlast
          exact hlnlast
        have hBlast2 := hBlast hSlast
        constructor
        · rw [heqT, getLast_append_ne (qpSpaceAdjust P ++ [61, 10]) _ hBne2]
          exact hBlast2
        · intro Y
          rw [heqT,
            List.append_assoc (qpSpaceAdjust P ++ [61, 10]) (qpDotAdjust S) Y,
            hkey (qpDotAdjust S ++ Y),
            a2b_qp_line_append (qpDotAdjust S) hBrem hBlast2 Y,
            hkey (qpDotAdjust S), List.append_assoc]
      · intro M hM
        rw [heqT] at hM
        have hno10A : ∀ b ∈ qpSpaceAdjust P ++ [61], b ≠ 10 := by
          intro b hb
          rcases List.mem_append.mp hb with hb1 | hb2
          · exact qpbody_no_nl _ hAbody b hb1
          · rw [List.mem_singleton] at hb2
            omega
        have hshape : qpSpaceAdjust P ++ [61, 10] ++ qpDotAdjust S =
            (qpSpaceAdjust P ++ [61]) ++ (10 :: qpDotAdjust S) := by
          simp
        rw [hshape] at hM
        unfold readlinesKeepEnds at hM
        rw [readlinesAux_skip _ hno10A [] _, readlinesAux_nl] at hM
        simp only [List.append_nil, List.reverse_reverse] at hM
        rcases List.mem_cons.mp hM with rfl | hM2
        · intro hcon
          cases hAP : qpSpaceAdjust P with
          | nil => exact absurd hAP hAne
          | cons a A2 =>
            rw [hAP, List.cons_append, List.cons_append,
              List.head?_cons] at hcon
            rw [hAP, List.head?_cons] at hAheadv
            have h61 := Option.some.inj hAheadv
            have h46 := Option.some.inj hcon
            omega
        · have hsingle : readlinesKeepEnds (qpDotAdjust S) = [qpDotAdjust S] :=
            qprem_readlines_single _ hBrem hBne2
          unfold readlinesKeepEnds at hsingle
          rw [hsingle, List.mem_singleton] at hM2
          subst hM2
          exact hBhead

/-- Per-line guarantee of the `fix_leading_dot` loop body. -/
theorem dotStuffLine_spec (L : List Nat) (hL : QpRem L) (hne : L ≠ []) :
    a2b_qp (dotStuffLine L) = a2b_qp L ∧
    (L.getLast? = some 10 →
      (dotStuffLine L).getLast? = some 10 ∧
      ∀ Y, a2b_qp (dotStuffLine L ++ Y) =
        a2b_qp (dotStuffLine L) ++ a2b_qp Y) ∧
    (∀ M ∈ readlinesKeepEnds (dotStuffLine L), M.head? ≠ some 46) := by
  cases L with
  | nil => exact absurd rfl hne
  | cons x r =>
    by_cases hx : x = 46
    · subst hx
      have heq : dotStuffLine (46 :: r) = _quote_and_cut (46 :: r) := by
        simp [dotStuffLine]
      rw [heq]
      exact quote_and_cut_spec r
        (qprem_cons_inv (46 :: r) hL 46 r rfl (by omega))
    · have heq : dotStuffLine (x :: r) = x :: r := by simp [dotStuffLine, hx]
      rw [heq]
      refine ⟨rfl, fun h10 => ⟨h10, fun Y => a2b_qp_line_append _ hL h10 Y⟩, ?_⟩
      intro M hM
      rw [qprem_readlines_single _ hL (List.cons_ne_nil _ _),
        List.mem_singleton] at hM
      subst hM
      intro hcon
      rw [List.head?_cons] at hcon
      exact hx (Option.some.inj hcon)

/-- The line-by-line loop of `fix_leading_dot`, over any readline-shaped
chain of well-formed lines: the concatenated output decodes identically and
no physical line of it starts with a dot. -/
theorem dotstuff_lines_spec (ls : List (List Nat)) (hch : LinesChain ls) :
    (∀ L ∈ ls, QpRem L) → (∀ L ∈ ls, L ≠ []) →
    (a2b_qp ((ls.map dotStuffLine).flatten) = a2b_qp ls.flatten ∧
     ∀ M ∈ readlinesKeepEnds ((ls.map dotStuffLine).flatten),
       M.head? ≠ some 46) := by
  induction hch with
  | nil =>
    intro _ _
    exact ⟨rfl, by simp [readlinesKeepEnds, readlinesAux]⟩
  | single L =>
    intro hval hne
    have hL := hval L (by simp)
    have hLne := hne L (by simp)
    obtain ⟨h1, _, h3⟩ := dotStuffLine_spec L hL hLne
    constructor
    · simpa using h1
    · intro M hM
      simp only [List.map_cons, List.map_nil, List.flatten_cons,
        List.flatten_nil, List.append_nil] at hM
      exact h3 M hM
  | cons L M0 rest h10 hrest ih =>
    intro hval hne
    have hL := hval L (by simp)
    have hLne := hne L (by simp)
    obtain ⟨h1, h2, h3⟩ := dotStuffLine_spec L hL hLne
    obtain ⟨hend, hcomp⟩ := h2 h10
    obtain ⟨ih1, ih2⟩ := ih (fun X hX => hval X (by simp [hX]))
      (fun X hX => hne X (by simp [hX]))
    have hunf : ((L :: M0 :: rest).map dotStuffLine).flatten =
        dotStuffLine L ++ ((M0 :: rest).map dotStuffLine).flatten := by
      simp
    have hunf2 : (L :: M0 :: rest).flatten = L ++ (M0 :: rest).flatten := by
      simp
    constructor
    · rw [hunf, hunf2, hcomp, ih1, h1,
        a2b_qp_line_append L hL h10 (M0 :: rest).flatten]
    · intro M hM
      rw [hunf] at hM
      unfold readlinesKeepEnds at hM
      rw [readlinesAux_append_nl (dotStuffLine L) [] _ hend] at hM
      rcases List.mem_append.mp hM with hMa | hMb
      · exact h3 M hMa
      · exact ih2 M hMb

/-- C5: for every quoted-printable-encoded text (each physical line is
well-formed quoted-printable) containing a line whose first byte is `.`,
the output of the dot-stuffing transform `fix_leading_dot` contains no line
beginning with an unescaped `.` (every leading dot has been hex-escaped
away), and quoted-printable-decoding the transformed output reproduces
exactly the bytes the pre-transform text decodes to. -/
theorem dot_stuffing_correct (s : List Nat)
    (hval : ∀ L ∈ readlinesKeepEnds s, QpRem L)
    (hdot : ∃ L ∈ readlinesKeepEnds s, L.head? = some 46) :
    quopri_decodestring (fix_leading_dot s) = quopri_decodestring s ∧
    ∀ L ∈ readlinesKeepEnds (fix_leading_dot s), L.head? ≠ some 46 := by
  have hch : LinesChain (readlinesKeepEnds s) := linesChain_readlinesAux s []
  have hne : ∀ L ∈ readlinesKeepEnds s, L ≠ [] :=
    fun L hL => mem_readlinesAux_ne_nil s [] L hL
  obtain ⟨h1, h2⟩ := dotstuff_lines_spec (readlinesKeepEnds s) hch hval hne
  refine ⟨?_, ?_⟩
  · show a2b_qp (fix_leading_dot s) = a2b_qp s
    unfold fix_leading_dot
    rw [h1, flatten_readlines]
  · intro L hL
    unfold fix_leading_dot at hL
    exact h2 L hL

theorem dot_stuffing_correct_witness :
    quopri_decodestring (fix_leading_dot [46, 10]) =
      quopri_decodestring [46, 10] ∧
    ∀ L ∈ readlinesKeepEnds (fix_leading_dot [46, 10]),
      L.head? ≠ some 46 :=
  dot_stuffing_correct [46, 10]
    (by
      intro L hL
      have h : readlinesKeepEnds [46, 10] = [[46, 10]] := rfl
      rw [h, List.mem_singleton] at hL
      subst hL
      exact QpRem.ord 46 (by decide) (by decide) [10] QpRem.hard)
    ⟨[46, 10], by decide, rfl⟩

end Flanker
